import Mathlib

/-!
A verification development for the SVG path builder web application
(`app.js` of MUHAMMADUSAMA64874/svg-path-builder-web).

The segment model, the textual path codec, curve sampling, hit testing,
geometry normalization and the undo history are embedded as executable
Lean definitions over rational coordinates, and the documented behaviours
are proved or refuted against them.

Modelling conventions:
  - JavaScript numbers are modelled as rationals. The comparison
    `Math.hypot(dx, dy) < 10` is modelled as `dx ^ 2 + dy ^ 2 < 100`.
  - `JSON.parse(JSON.stringify(x))` deep copies are the identity on
    immutable Lean values.
  - `parseFloat` applied to a token with no numeric prefix yields `NaN`
    in JavaScript; the embedding reports this as a parse error instead of
    propagating a `NaN` coordinate (no settled statement depends on such
    inputs).
  - Rendering, DOM access and file dialogs have no effect on the model
    state and are omitted.
-/

namespace SvgPB

/-- A path segment, mirroring the tagged arrays of `app.js`: an array
tagged `M` holds one point, an array tagged `C` holds two control points
and an end point. -/
inductive Seg where
  | M (x y : ℚ)
  | C (c1x c1y c2x c2y x y : ℚ)
deriving DecidableEq, Repr

def segIsM : Seg → Bool
  | .M _ _ => true
  | .C _ _ _ _ _ _ => false

def segIsC : Seg → Bool
  | .M _ _ => false
  | .C _ _ _ _ _ _ => true

/-- The terminal point of a segment: entries 1 and 2 of an `M` array,
entries 5 and 6 of a `C` array (as read by `getPreviousEndpoint`). -/
def segEndpoint : Seg → ℚ × ℚ
  | .M x y => (x, y)
  | .C _ _ _ _ x y => (x, y)

/-- All coordinate pairs referenced by a segment, in array order
(as collected by `generateSVG` and `normalizePath`). -/
def segPts : Seg → List (ℚ × ℚ)
  | .M x y => [(x, y)]
  | .C a b c d x y => [(a, b), (c, d), (x, y)]

/-- The chain invariant of the spec: a non-empty path starts with one `M`
segment and every later segment is a `C` segment. -/
def wellFormed : List Seg → Bool
  | [] => true
  | s :: rest => segIsM s && rest.all segIsC

/-- All points of all segments of a path, concatenated in order. -/
def segPtsList : List Seg → List (ℚ × ℚ)
  | [] => []
  | s :: rest => segPts s ++ segPtsList rest

/- ## Character classes and decimal digits -/

def isDig (c : Char) : Bool := 48 ≤ c.toNat && c.toNat ≤ 57

def isAsciiAlpha (c : Char) : Bool :=
  (65 ≤ c.toNat && c.toNat ≤ 90) || (97 ≤ c.toNat && c.toNat ≤ 122)

/-- The ASCII part of the JavaScript whitespace class. -/
def isJsSpace (c : Char) : Bool :=
  c = ' ' || c = '\t' || c = '\n' || c = '\r' || c.toNat = 11 || c.toNat = 12

/-- The separator class of the tokenizer: whitespace or comma. -/
def isSepChar (c : Char) : Bool := isJsSpace c || c = ','

/-- The JavaScript `trim`: strip whitespace from both ends. -/
def jsTrim (s : String) : String :=
  String.mk (((s.data.dropWhile isJsSpace).reverse.dropWhile isJsSpace).reverse)

def digitChar : ℕ → Char
  | 0 => '0'
  | 1 => '1'
  | 2 => '2'
  | 3 => '3'
  | 4 => '4'
  | 5 => '5'
  | 6 => '6'
  | 7 => '7'
  | 8 => '8'
  | _ => '9'

/-- Decimal digit characters, most significant first, by structural
recursion on a fuel bound; any fuel at least `n` is enough, and the
fuel-zero case only ever sees `n = 0`. -/
def natDigitsF : ℕ → ℕ → List Char
  | 0, n => [digitChar (n % 10)]
  | fuel + 1, n =>
      if n < 10 then [digitChar n]
      else natDigitsF fuel (n / 10) ++ [digitChar (n % 10)]

/-- Decimal digit characters of a natural number, most significant first. -/
def natDigits (n : ℕ) : List Char := natDigitsF n n

/-- Exactly two decimal digits for a value below 100 (the fractional part
printed by `toFixed(2)`). -/
def twoDigits (n : ℕ) : List Char :=
  if n < 10 then ['0', digitChar n] else natDigits n

/-- Numeric value of a digit character list, most significant first. -/
def digitsVal (l : List Char) : ℕ := l.foldl (fun a c => 10 * a + (c.toNat - 48)) 0

/- ## The serializer (generateSVG path data) -/

/-- The integer that `toFixed(2)` prints (times 100): the integer nearest
to 100 times the magnitude, ties rounded up, per the ECMAScript
`Number.prototype.toFixed` algorithm on the exact value. -/
def fix2Nat (q : ℚ) : ℕ := (⌊|q| * 100 + 1 / 2⌋).toNat

def toFixed2Chars (q : ℚ) : List Char :=
  (if q < 0 then ['-'] else []) ++
    natDigits (fix2Nat q / 100) ++ '.' :: twoDigits (fix2Nat q % 100)

def toFixed2 (q : ℚ) : String := String.mk (toFixed2Chars q)

/-- The rational denoted by the `toFixed(2)` output of `q`. -/
def round2 (q : ℚ) : ℚ := (if q < 0 then -1 else 1) * (fix2Nat q : ℚ) / 100

def round2Seg : Seg → Seg
  | .M x y => .M (round2 x) (round2 y)
  | .C a b c d x y =>
      .C (round2 a) (round2 b) (round2 c) (round2 d) (round2 x) (round2 y)

/-- The path-data text of one segment, as produced by `generateSVG`. -/
def serializeSeg : Seg → String
  | .M x y => "M" ++ toFixed2 x ++ "," ++ toFixed2 y
  | .C a b c d x y =>
      "C" ++ toFixed2 a ++ "," ++ toFixed2 b ++ " " ++ toFixed2 c ++ "," ++ toFixed2 d
        ++ " " ++ toFixed2 x ++ "," ++ toFixed2 y

/-- `join` with a single space, as in `pathData.join` of `generateSVG`. -/
def joinSpace : List String → String
  | [] => ""
  | [s] => s
  | s :: rest => s ++ " " ++ joinSpace rest

def serializePath (pts : List Seg) : String := joinSpace (pts.map serializeSeg)

/- ## The tokenizer of loadPathData -/

/-- Greedy match of the core of the number regex (digits, optional dot,
at least one digit overall) at the current position, with the JavaScript
backtracking semantics. Returns the match and the rest. -/
def matchCore (cs : List Char) : Option (List Char × List Char) :=
  let d1 := cs.takeWhile isDig
  let r1 := cs.dropWhile isDig
  if r1.head? = some '.' then
    let d2 := r1.tail.takeWhile isDig
    if d2.isEmpty then
      if d1.isEmpty then none else some (d1, r1)
    else some (d1 ++ '.' :: d2, r1.tail.dropWhile isDig)
  else if d1.isEmpty then none else some (d1, r1)

/-- Optional exponent group of the number regex; dropped wholly when it
cannot complete. -/
def matchExp (m r : List Char) : List Char × List Char :=
  match r with
  | e :: r2 =>
      if e = 'e' ∨ e = 'E' then
        match r2 with
        | s :: r3 =>
            if s = '+' ∨ s = '-' then
              let d := r3.takeWhile isDig
              if d.isEmpty then (m, r) else (m ++ e :: s :: d, r3.dropWhile isDig)
            else
              let d := r2.takeWhile isDig
              if d.isEmpty then (m, r) else (m ++ e :: d, r2.dropWhile isDig)
        | [] => (m, r)
      else (m, r)
  | [] => (m, r)

/-- Match of the full number regex (optional sign, core, optional
exponent) at the current position. -/
def matchNumAt (cs : List Char) : Option (List Char × List Char) :=
  match cs with
  | c :: rest =>
      if c = '+' ∨ c = '-' then
        match matchCore rest with
        | some (m, r) => some (matchExp (c :: m) r)
        | none => none
      else
        match matchCore cs with
        | some (m, r) => some (matchExp m r)
        | none => none
  | [] => none

/-- First match of the number regex anywhere in the remaining input
(`exec` is unanchored in the source). -/
def execNum : List Char → Option (List Char)
  | [] => none
  | c :: rest =>
      match matchNumAt (c :: rest) with
      | some (m, _) => some m
      | none => execNum rest

/-- The tokenizer loop: letters become single-character tokens, whitespace
and commas are skipped, anything else must start (or contain) a number
match, and the position advances by the length of that match. A match is
never empty, so advancing by its length over `c :: cs` is dropping one
fewer characters from `cs`. Structural recursion on a fuel bound; every
step consumes at least one character, so any fuel at least the length of
the input suffices and the fuel-zero case on a non-empty input is dead. -/
def tokenizeFuel : ℕ → List Char → Except String (List String)
  | _, [] => .ok []
  | 0, _ :: _ => .error ("Tokenizer fuel exhausted")
  | fuel + 1, c :: cs =>
      if isAsciiAlpha c then
        (tokenizeFuel fuel cs).map (fun ts => String.mk [c] :: ts)
      else if isSepChar c then
        tokenizeFuel fuel cs
      else
        match execNum (c :: cs) with
        | some m =>
            (tokenizeFuel fuel (cs.drop (m.length - 1))).map (fun ts => String.mk m :: ts)
        | none => .error ("Invalid character in path string")

def tokenize (s : String) : Except String (List String) :=
  tokenizeFuel s.data.length s.data

/- ## parseFloat -/

/-- The value of the longest decimal-literal text at the start of `s`
(after leading whitespace), or `none` where JavaScript `parseFloat` gives
`NaN`. An incomplete exponent part is ignored, as in JavaScript. -/
def parseFloatQ (s : String) : Option ℚ :=
  match s.data.dropWhile isJsSpace with
  | [] => none
  | c0 :: rest =>
      let sgn : ℚ := if c0 = '-' then -1 else 1
      let cs1 := if c0 = '-' ∨ c0 = '+' then rest else c0 :: rest
      let d1 := cs1.takeWhile isDig
      let cs2 := cs1.dropWhile isDig
      let d2 := if cs2.head? = some '.' then cs2.tail.takeWhile isDig else []
      let cs3 := if cs2.head? = some '.' then cs2.tail.dropWhile isDig else cs2
      if d1.isEmpty && d2.isEmpty then none
      else
        let mant : ℚ := (digitsVal d1 : ℚ) + (digitsVal d2 : ℚ) / 10 ^ d2.length
        let e : ℤ :=
          match cs3 with
          | ce :: t =>
              if ce = 'e' ∨ ce = 'E' then
                match t with
                | s1 :: t2 =>
                    if s1 = '-' then -(digitsVal (t2.takeWhile isDig) : ℤ)
                    else if s1 = '+' then (digitsVal (t2.takeWhile isDig) : ℤ)
                    else (digitsVal (t.takeWhile isDig) : ℤ)
                | [] => 0
              else 0
          | [] => 0
        some (sgn * mant * (10 : ℚ) ^ e)

/- ## The command parser of loadPathData -/

/-- The test `/[A-Za-z]/.test(token)`: whether any character of the token
is an ASCII letter. -/
def containsLetter (s : String) : Bool := s.data.any isAsciiAlpha

def lowerChar (c : Char) : Char :=
  if 65 ≤ c.toNat ∧ c.toNat ≤ 90 then Char.ofNat (c.toNat + 32) else c

/-- `toLowerCase` on the ASCII letters. -/
def strToLower (s : String) : String := String.mk (s.data.map lowerChar)

/-- Outcome of the parsing loop. On an error the segments pushed before
the throw are kept, mirroring the in-place mutation of `this.points`
inside the `try` block of `loadPathData`. -/
inductive ParseRes where
  | ok (pts : List Seg)
  | err (msg : String) (builtPts : List Seg)
deriving DecidableEq, Repr

/-- Outcome of an inner operand loop: either the loop ended after
consuming `k` tokens (with the updated current point and segment list) or
the whole parse stopped with a result. -/
inductive InnerRes where
  | more (k : ℕ) (cx cy : ℚ) (acc : List Seg)
  | stop (r : ParseRes)
deriving Repr

/-- The implicit line-to loop after an `M`/`m` pair: repeated coordinate
pairs become straight `C` segments by the thirds rule, until a token
containing a letter (or the end) is reached. -/
def parseImplicit (rel : Bool) : List String → ℚ → ℚ → List Seg → InnerRes
  | [], cx, cy, acc => .more 0 cx cy acc
  | t :: rest, cx, cy, acc =>
      if containsLetter t then .more 0 cx cy acc
      else
        match rest with
        | [] => .stop (.err ("Incomplete implicit line-to command") acc)
        | ty :: rest2 =>
            match parseFloatQ t, parseFloatQ ty with
            | some x0, some y0 =>
                let x := if rel then x0 + cx else x0
                let y := if rel then y0 + cy else y0
                let cp1x := cx + (x - cx) / 3
                let cp1y := cy + (y - cy) / 3
                let cp2x := cx + 2 * (x - cx) / 3
                let cp2y := cy + 2 * (y - cy) / 3
                match parseImplicit rel rest2 x y (acc ++ [Seg.C cp1x cp1y cp2x cp2y x y]) with
                | .more k cx2 cy2 acc2 => .more (k + 2) cx2 cy2 acc2
                | .stop r => .stop r
            | _, _ => .stop (.err ("NaN coordinate") acc)

/-- The operand loop of a `C`/`c` command: repeated six-tuples, until a
token containing a letter (or the end) is reached. -/
def parseCArgs (rel : Bool) : List String → ℚ → ℚ → List Seg → InnerRes
  | [], cx, cy, acc => .more 0 cx cy acc
  | t :: rest, cx, cy, acc =>
      if containsLetter t then .more 0 cx cy acc
      else
        match rest with
        | t2 :: t3 :: t4 :: t5 :: t6 :: rest2 =>
            match parseFloatQ t, parseFloatQ t2, parseFloatQ t3, parseFloatQ t4,
                parseFloatQ t5, parseFloatQ t6 with
            | some a, some b, some c, some d, some e, some f =>
                let cp1x := if rel then a + cx else a
                let cp1y := if rel then b + cy else b
                let cp2x := if rel then c + cx else c
                let cp2y := if rel then d + cy else d
                let endX := if rel then e + cx else e
                let endY := if rel then f + cy else f
                match parseCArgs rel rest2 endX endY
                    (acc ++ [Seg.C cp1x cp1y cp2x cp2y endX endY]) with
                | .more k cx2 cy2 acc2 => .more (k + 6) cx2 cy2 acc2
                | .stop r => .stop r
            | _, _, _, _, _, _ => .stop (.err ("NaN coordinate") acc)
        | _ => .stop (.err ("Incomplete C command") acc)

/-- The outer command loop of `loadPathData`, by structural recursion on
a fuel bound. Every outer iteration consumes at least the command token,
so any fuel at least the number of tokens suffices and the fuel-zero case
on a non-empty token list is dead. -/
def parseLoopFuel : ℕ → List String → ℚ → ℚ → List Seg → ParseRes
  | _, [], _, _, acc => .ok acc
  | 0, _ :: _, _, _, acc => .err ("Parser fuel exhausted") acc
  | fuel + 1, cmd :: rest, cx, cy, acc =>
      if strToLower cmd = "m" then
        match rest with
        | tx :: ty :: rest2 =>
            match parseFloatQ tx, parseFloatQ ty with
            | some x0, some y0 =>
                let x := if cmd = "m" then x0 + cx else x0
                let y := if cmd = "m" then y0 + cy else y0
                match parseImplicit (cmd = "m") rest2 x y (acc ++ [Seg.M x y]) with
                | .more k cx2 cy2 acc2 => parseLoopFuel fuel (rest2.drop k) cx2 cy2 acc2
                | .stop r => r
            | _, _ => .err ("NaN coordinate") acc
        | _ => .err ("Incomplete M command") acc
      else if strToLower cmd = "c" then
        match parseCArgs (cmd = "c") rest cx cy acc with
        | .more k cx2 cy2 acc2 => parseLoopFuel fuel (rest.drop k) cx2 cy2 acc2
        | .stop r => r
      else if strToLower cmd = "z" then
        parseLoopFuel fuel rest cx cy acc
      else .err ("Unsupported path command: " ++ cmd) acc

/-- The outer command loop of `loadPathData`. -/
def parseLoop (toks : List String) (cx cy : ℚ) (acc : List Seg) : ParseRes :=
  parseLoopFuel toks.length toks cx cy acc

/-- The codec parse: tokenize, then run the command loop from current
point `(0, 0)` with an empty segment list. -/
def parsePath (s : String) : ParseRes :=
  match tokenize s with
  | .error msg => .err msg []
  | .ok toks => parseLoop toks 0 0 []

/- ## Geometry: normalizePath, sampling, hit testing -/

/-- The spread `Math.min(...)` / `Math.max(...)` over a value list: fold
the first element through the rest (0 on the empty list, which the
callers guard against). -/
def foldFirst (f : ℚ → ℚ → ℚ) : List ℚ → ℚ
  | [] => 0
  | x :: xs => xs.foldl f x

def minXOf (pts : List Seg) : ℚ := foldFirst min ((segPtsList pts).map Prod.fst)

def maxXOf (pts : List Seg) : ℚ := foldFirst max ((segPtsList pts).map Prod.fst)

def minYOf (pts : List Seg) : ℚ := foldFirst min ((segPtsList pts).map Prod.snd)

def maxYOf (pts : List Seg) : ℚ := foldFirst max ((segPtsList pts).map Prod.snd)

/-- The per-point affine transform applied by `normalizePath`. -/
def scaleSeg (s ox oy : ℚ) : Seg → Seg
  | .M x y => .M (x * s + ox) (y * s + oy)
  | .C a b c d x y =>
      .C (a * s + ox) (b * s + oy) (c * s + ox) (d * s + oy) (x * s + ox) (y * s + oy)

/-- `normalizePath`: fit the bounding box of all segment points into the
canvas with padding 50, uniform scale, centred. A zero extent is replaced
by 1 (the `|| 1` fallback). -/
def normalizePath (cw ch : ℚ) (pts : List Seg) : List Seg :=
  if pts.isEmpty then pts
  else
    let minX := minXOf pts
    let maxX := maxXOf pts
    let minY := minYOf pts
    let maxY := maxYOf pts
    let width := if maxX - minX = 0 then 1 else maxX - minX
    let height := if maxY - minY = 0 then 1 else maxY - minY
    let padding : ℚ := 50
    let widthScale := (cw - 2 * padding) / width
    let heightScale := (ch - 2 * padding) / height
    let scale := min widthScale heightScale
    let offsetX := (cw - width * scale) / 2 - minX * scale
    let offsetY := (ch - height * scale) / 2 - minY * scale
    pts.map (scaleSeg scale offsetX offsetY)

/-- One coordinate of the cubic Bezier polynomial as written in
`samplePathPoints`. -/
def bezierCoord (t p0 p1 p2 p3 : ℚ) : ℚ :=
  (1 - t) ^ 3 * p0 + 3 * (1 - t) ^ 2 * t * p1 + 3 * (1 - t) * t ^ 2 * p2 + t ^ 3 * p3

/-- The loop of `samplePathPoints` from index 1 on: `prev` is the segment
before the current one, `total` the length of the whole segment list. -/
def sampleAux (n total : ℕ) : Seg → List Seg → List (ℚ × ℚ)
  | _, [] => []
  | prev, s :: tl =>
      (match s with
       | Seg.C c1x c1y c2x c2y ex ey =>
           let pps := n / max 1 (total - 1)
           (List.range pps).map (fun (j : ℕ) =>
             let t : ℚ := ((j : ℚ) + 1) / (pps : ℚ)
             (bezierCoord t (segEndpoint prev).1 c1x c2x ex,
              bezierCoord t (segEndpoint prev).2 c1y c2y ey))
       | Seg.M _ _ => []) ++ sampleAux n total s tl

/-- `samplePathPoints`: the initial `M` point, then for every `C` segment
the Bezier values at `t = j / pps` for `j = 1 .. pps`, where
`pps = floor (n / max 1 (length - 1))`. -/
def samplePathPoints (pts : List Seg) (n : ℕ) : List (ℚ × ℚ) :=
  match pts with
  | [] => []
  | first :: rest =>
      (match first with
       | Seg.M x y => [(x, y)]
       | _ => []) ++ sampleAux n pts.length first rest

/-- The hit test of the edit branch of `handleCanvasClick` on one
segment: the single point of an `M`, the points at array offsets 1, 3, 5
of a `C` (control 1, control 2, end point) in that order, within strict
distance 10. -/
def segHit (x y : ℚ) : Seg → Option ℕ
  | Seg.M px py => if (x - px) ^ 2 + (y - py) ^ 2 < 100 then some 0 else none
  | Seg.C c1x c1y c2x c2y ex ey =>
      if (x - c1x) ^ 2 + (y - c1y) ^ 2 < 100 then some 0
      else if (x - c2x) ^ 2 + (y - c2y) ^ 2 < 100 then some 1
      else if (x - ex) ^ 2 + (y - ey) ^ 2 < 100 then some 2
      else none

def hitTestAux (x y : ℚ) (i : ℕ) : List Seg → Option (ℕ × ℕ)
  | [] => none
  | s :: tl =>
      match segHit x y s with
      | some j => some (i, j)
      | none => hitTestAux x y (i + 1) tl

/-- The segment scan of the edit branch of `handleCanvasClick`: first
segment and role within distance 10 of the query, scanning segments in
index order and roles in array order. -/
def hitTest (pts : List Seg) (x y : ℚ) : Option (ℕ × ℕ) := hitTestAux x y 0 pts

/- ## Application state and event handlers -/

inductive Mode where
  | addPoints
  | editPoints
deriving DecidableEq, Repr

structure AppState where
  points : List Seg
  undoStack : List (List Seg)
  redoStack : List (List Seg)
  dragging : Bool
  selectedPointIndex : Option (ℕ × ℕ)
  mode : Mode
deriving DecidableEq, Repr

def initState : AppState :=
  { points := [], undoStack := [], redoStack := [], dragging := false,
    selectedPointIndex := none, mode := Mode.addPoints }

/-- `saveState`: push a deep copy of the current points, clear the redo
stack, and shift the oldest undo entry out when the stack exceeds 50. -/
def saveState (st : AppState) : AppState :=
  let u := st.undoStack ++ [st.points]
  { st with undoStack := if 50 < u.length then u.drop 1 else u, redoStack := [] }

/-- The shape shared by the history-wrapped mutations: snapshot first,
then replace the points. -/
def applyMut (f : List Seg → List Seg) (st : AppState) : AppState :=
  let st1 := saveState st
  { st1 with points := f st1.points }

def getPreviousEndpoint (pts : List Seg) (index : ℕ) : ℚ × ℚ :=
  if index = 0 then (0, 0)
  else
    match pts.get? (index - 1) with
    | some s => segEndpoint s
    | none => (0, 0)

/-- The add-points branch of `handleCanvasClick` after its `saveState`:
append an `M` segment to an empty path, otherwise a `C` segment whose
control points lie at one and two thirds of the straight line from the
previous endpoint. -/
def clickAppend (x y : ℚ) (pts : List Seg) : List Seg :=
  if pts.length = 0 then pts ++ [Seg.M x y]
  else
    let e := getPreviousEndpoint pts pts.length
    let cp1x := e.1 + (x - e.1) / 3
    let cp1y := e.2 + (y - e.2) / 3
    let cp2x := e.1 + 2 * (x - e.1) / 3
    let cp2y := e.2 + 2 * (y - e.2) / 3
    pts ++ [Seg.C cp1x cp1y cp2x cp2y x y]

/-- `handleCanvasClick`: in add mode, `saveState` then append; in edit
mode, select the first hit point and start dragging (no snapshot). -/
def handleCanvasClick (st : AppState) (x y : ℚ) : AppState :=
  match st.mode with
  | Mode.addPoints => applyMut (clickAppend x y) st
  | Mode.editPoints =>
      match hitTest st.points x y with
      | some sel => { st with selectedPointIndex := some sel, dragging := true }
      | none => st

/-- Source line 218 compares the index with `this.points.legth`, a
misspelling of `length`: the missing property reads as `undefined` and
the JavaScript comparison with `undefined` is always false, so the write
branch guarded by it never runs. -/
def legthGuard (_idx : ℕ) : Bool := false

/-- The coordinate write the drag handler would perform if its guard
could succeed. -/
def dragWrite (pts : List Seg) (idx ptype : ℕ) (x y : ℚ) : List Seg :=
  match pts.get? idx with
  | some (Seg.M _ _) => pts.set idx (Seg.M x y)
  | some (Seg.C a b c d e f) =>
      if ptype = 0 then pts.set idx (Seg.C x y c d e f)
      else if ptype = 1 then pts.set idx (Seg.C a b x y e f)
      else if ptype = 2 then pts.set idx (Seg.C a b c d x y)
      else pts
  | none => pts

/-- `handleCanvasDrag`: ignore the event unless dragging with a
selection; otherwise clamp the pointer to the canvas, `saveState`, and
run the (dead) write branch. -/
def handleCanvasDrag (cw ch : ℚ) (st : AppState) (ex ey : ℚ) : AppState :=
  if st.dragging = false then st
  else
    match st.selectedPointIndex with
    | none => st
    | some sel =>
        let x := max 0 (min ex cw)
        let y := max 0 (min ey ch)
        let st1 := saveState st
        if legthGuard sel.1 then
          { st1 with points := dragWrite st1.points sel.1 sel.2 x y }
        else st1

def handleCanvasRelease (st : AppState) : AppState :=
  { st with dragging := false, selectedPointIndex := none }

/-- `undo`: pop the newest undo entry (if any) into the live path and
push the previous live path onto the redo stack. -/
def undo (st : AppState) : AppState :=
  match st.undoStack.getLast? with
  | none => st
  | some prev =>
      { st with
        redoStack := st.redoStack ++ [st.points]
        undoStack := st.undoStack.dropLast
        points := prev }

def redo (st : AppState) : AppState :=
  match st.redoStack.getLast? with
  | none => st
  | some nxt =>
      { st with
        undoStack := st.undoStack ++ [st.points]
        redoStack := st.redoStack.dropLast
        points := nxt }

/-- `clearCanvas`: snapshot only when the path is non-empty, then reset
the points (image and animation state are outside the model). -/
def clearCanvas (st : AppState) : AppState :=
  let st1 := if 0 < st.points.length then saveState st else st
  { st1 with points := [] }

/-- `fitToCanvas`: `saveState` then `normalizePath` in place. -/
def fitToCanvas (cw ch : ℚ) (st : AppState) : AppState :=
  applyMut (normalizePath cw ch) st

/-- `loadPathData`: on blank (trimmed) input return unchanged; otherwise
snapshot, clear the points, tokenize and parse. On success the parsed
segments are normalized into the live path; on failure the live path
holds the segments built before the throw and the error message is
reported (the second component models the status-bar report). -/
def loadPathData (cw ch : ℚ) (st : AppState) (input : String) :
    AppState × Option String :=
  let trimmed := jsTrim input
  if trimmed = "" then (st, none)
  else
    let st1 := { saveState st with points := ([] : List Seg) }
    match tokenize trimmed with
    | .error msg => (st1, some ("Error loading path: " ++ msg))
    | .ok toks =>
        match parseLoop toks 0 0 [] with
        | .err msg built =>
            ({ st1 with points := built }, some ("Error loading path: " ++ msg))
        | .ok pts =>
            if 0 < pts.length then
              ({ st1 with points := normalizePath cw ch pts }, none)
            else
              ({ st1 with points := pts },
                some ("Error loading path: No valid path commands found"))

/- ## Token lists of serialized paths (proof support) -/

def segTokens : Seg → List String
  | .M x y => ["M", toFixed2 x, toFixed2 y]
  | .C a b c d x y =>
      ["C", toFixed2 a, toFixed2 b, toFixed2 c, toFixed2 d, toFixed2 x, toFixed2 y]

def pathTokens : List Seg → List String
  | [] => []
  | s :: rest => segTokens s ++ pathTokens rest

/- ## Spec-side definitions used by refinement claims -/

/-- Modelled from the spec (claim C5): the candidate (segment index,
role) pairs with their points, in scan order: segments by index, roles in
array order within a segment. -/
def hitCandidatesFrom (i : ℕ) : List Seg → List ((ℕ × ℕ) × (ℚ × ℚ))
  | [] => []
  | s :: tl =>
      ((segPts s).enum.map (fun rp => ((i, rp.1), rp.2))) ++ hitCandidatesFrom (i + 1) tl

/-- Modelled from the spec (claim C5): return the first candidate within
Euclidean distance 10 of the query (strictly within, which the worked
example of the claim forces). -/
def hitTestSpec (pts : List Seg) (x y : ℚ) : Option (ℕ × ℕ) :=
  ((hitCandidatesFrom 0 pts).find?
    (fun c => (x - c.2.1) ^ 2 + (y - c.2.2) ^ 2 < 100)).map Prod.fst

/-- Modelled from the spec (claim C7): the cubic Bezier point formula
B(t) on points. -/
def bezierB (t : ℚ) (p0 p1 p2 p3 : ℚ × ℚ) : ℚ × ℚ :=
  ((1 - t) ^ 3 * p0.1 + 3 * (1 - t) ^ 2 * t * p1.1 + 3 * (1 - t) * t ^ 2 * p2.1
      + t ^ 3 * p3.1,
   (1 - t) ^ 3 * p0.2 + 3 * (1 - t) ^ 2 * t * p1.2 + 3 * (1 - t) * t ^ 2 * p2.2
      + t ^ 3 * p3.2)

/-- Modelled from the spec (claim C7): for each CubicTo in order, the
points B(j / budget) for j = 1 .. budget, with P0 the previous endpoint. -/
def sampleSpecSegs (pps : ℕ) : ℚ × ℚ → List Seg → List (ℚ × ℚ)
  | _, [] => []
  | p0, Seg.C a b c d x y :: tl =>
      (List.range pps).map
        (fun (j : ℕ) => bezierB (((j : ℚ) + 1) / (pps : ℚ)) p0 (a, b) (c, d) (x, y))
        ++ sampleSpecSegs pps (x, y) tl
  | _, Seg.M x y :: tl => sampleSpecSegs pps (x, y) tl

/-- Modelled from the spec (claim C7): the MoveTo point, then the Bezier
samples of every CubicTo with the shared budget floor(n / max 1
(segmentCount - 1)). -/
def sampleSpec (pts : List Seg) (n : ℕ) : List (ℚ × ℚ) :=
  match pts with
  | Seg.M x y :: rest => (x, y) :: sampleSpecSegs (n / max 1 (pts.length - 1)) (x, y) rest
  | _ => []

/-- Modelled from the claim wording of C9: as `normalizePath`, but with
the bounding-box extents floored at 1 (lower bounded by 1) instead of the
fallback of the source that only replaces an extent of exactly 0. -/
def normalizePathFloored (cw ch : ℚ) (pts : List Seg) : List Seg :=
  if pts.isEmpty then pts
  else
    let minX := minXOf pts
    let maxX := maxXOf pts
    let minY := minYOf pts
    let maxY := maxYOf pts
    let width := max (maxX - minX) 1
    let height := max (maxY - minY) 1
    let padding : ℚ := 50
    let widthScale := (cw - 2 * padding) / width
    let heightScale := (ch - 2 * padding) / height
    let scale := min widthScale heightScale
    let offsetX := (cw - width * scale) / 2 - minX * scale
    let offsetY := (ch - height * scale) / 2 - minY * scale
    pts.map (scaleSeg scale offsetX offsetY)

/- ## Proof-support runners over the state -/

/-- A run of history-wrapped mutations. -/
def runMuts (fs : List (List Seg → List Seg)) (st : AppState) : AppState :=
  fs.foldl (fun s f => applyMut f s) st

/-- The pre-mutation path values of a run: the live path right before
each mutation of the run is applied. -/
def preStates : List (List Seg → List Seg) → List Seg → List (List Seg)
  | [], _ => []
  | f :: fs, p => p :: preStates fs (f p)

/-- A sequence of drag move events fed to `handleCanvasDrag`. -/
def processMoves (cw ch : ℚ) (moves : List (ℚ × ℚ)) (st : AppState) : AppState :=
  moves.foldl (fun s m => handleCanvasDrag cw ch s m.1 m.2) st

/-- The chain invariant on the live path and on every history entry. -/
def wfState (st : AppState) : Bool :=
  wellFormed st.points && st.undoStack.all wellFormed && st.redoStack.all wellFormed

/- ## Concrete fixtures used by witnesses and counterexamples -/

/-- A state in the middle of a drag gesture: one point, selected, dragging. -/
def dragFixture : AppState :=
  { points := [Seg.M 0 0], undoStack := [], redoStack := [],
    dragging := true, selectedPointIndex := some (0, 0), mode := Mode.editPoints }

/-- A two-segment path in add mode whose endpoint is (20, 20). -/
def addFixture : AppState :=
  { points := [Seg.M 10 10, Seg.C 0 0 0 0 20 20], undoStack := [], redoStack := [],
    dragging := false, selectedPointIndex := none, mode := Mode.addPoints }

/-- The path of the worked example of the spec. -/
def examplePath : List Seg := [Seg.M 0 0, Seg.C 10 0 20 10 20 20]

/- # Theorems -/

/- ## History basics -/

theorem saveState_points (st : AppState) : (saveState st).points = st.points := rfl

theorem saveState_redoStack (st : AppState) : (saveState st).redoStack = [] := rfl

theorem saveState_dragging (st : AppState) : (saveState st).dragging = st.dragging := rfl

theorem saveState_selected (st : AppState) :
    (saveState st).selectedPointIndex = st.selectedPointIndex := rfl

theorem saveState_mode (st : AppState) : (saveState st).mode = st.mode := rfl

theorem saveState_undoStack (st : AppState) (h : st.undoStack.length ≤ 50) :
    (saveState st).undoStack =
      (st.undoStack ++ [st.points]).drop (st.undoStack.length + 1 - 50) := by
  unfold saveState
  by_cases hc : st.undoStack.length = 50
  · have h1 : 50 < (st.undoStack ++ [st.points]).length := by
      simp [List.length_append, hc]
    have h2 : st.undoStack.length + 1 - 50 = 1 := by omega
    rw [h2]
    simp only [if_pos h1]
  · have h1 : ¬ 50 < (st.undoStack ++ [st.points]).length := by
      simp [List.length_append]
      omega
    have h2 : st.undoStack.length + 1 - 50 = 0 := by omega
    rw [h2, List.drop_zero]
    simp only [if_neg h1]

theorem saveState_undoStack_length (st : AppState) (h : st.undoStack.length ≤ 50) :
    (saveState st).undoStack.length = min (st.undoStack.length + 1) 50 := by
  rw [saveState_undoStack st h]
  simp [List.length_drop, List.length_append]
  omega

/-- During a drag with a selected point, a move event is exactly a
`saveState` (the coordinate-update branch is dead, its guard reads the
misspelled property). -/
theorem drag_eq_saveState (cw ch : ℚ) (st : AppState) (ex ey : ℚ)
    (hd : st.dragging = true) (hs : st.selectedPointIndex.isSome = true) :
    handleCanvasDrag cw ch st ex ey = saveState st := by
  cases hsel : st.selectedPointIndex with
  | none => rw [hsel] at hs; simp at hs
  | some sel => simp [handleCanvasDrag, hd, hsel, legthGuard]

/-- C10: during an active drag, every processed move event leaves every
segment of the path unchanged (the coordinate-update branch is
unreachable, because its guard compares the index against the undefined
property `points.legth`), while it still pushes one snapshot onto the
undo stack and clears the redo stack. -/
theorem c10_drag_dead_write (cw ch : ℚ) (st : AppState) (ex ey : ℚ)
    (hd : st.dragging = true) (hs : st.selectedPointIndex.isSome = true) :
    (handleCanvasDrag cw ch st ex ey).points = st.points ∧
    handleCanvasDrag cw ch st ex ey = saveState st ∧
    (handleCanvasDrag cw ch st ex ey).redoStack = [] ∧
    (handleCanvasDrag cw ch st ex ey).undoStack.length =
      (if st.undoStack.length < 50 then st.undoStack.length + 1
       else st.undoStack.length) := by
  have he := drag_eq_saveState cw ch st ex ey hd hs
  refine ⟨by rw [he]; rfl, he, by rw [he]; rfl, ?_⟩
  rw [he]
  unfold saveState
  by_cases hc : st.undoStack.length < 50
  · have h1 : ¬ 50 < (st.undoStack ++ [st.points]).length := by
      simp [List.length_append]; omega
    rw [if_pos hc]
    simp only [if_neg h1]
    simp [List.length_append]
  · have h1 : 50 < (st.undoStack ++ [st.points]).length := by
      simp [List.length_append]; omega
    rw [if_neg hc]
    simp only [if_pos h1]
    simp [List.length_drop, List.length_append]

/-- C10 witness: a concrete move event during a drag over the one-point
path. -/
theorem c10_drag_dead_write_witness :
    dragFixture.dragging = true ∧ dragFixture.selectedPointIndex.isSome = true ∧
    (handleCanvasDrag 800 600 dragFixture 5 5).points = dragFixture.points := by
  exact ⟨rfl, rfl, (c10_drag_dead_write 800 600 dragFixture 5 5 rfl rfl).1⟩

theorem processMoves_cons (cw ch : ℚ) (m : ℚ × ℚ) (ms : List (ℚ × ℚ)) (st : AppState) :
    processMoves cw ch (m :: ms) st
      = processMoves cw ch ms (handleCanvasDrag cw ch st m.1 m.2) := rfl

unseal Rat.mul Rat.add Rat.sub Rat.inv in
/-- C4 counterexample: a complete drag gesture (a press in edit mode that
selects the M point, two move events, one release) pushes two snapshots
onto the undo stack, not exactly one. -/
theorem c4_gesture_two_snapshots :
    (handleCanvasRelease
        (handleCanvasDrag 800 600
          (handleCanvasDrag 800 600
            (handleCanvasClick
              { initState with points := [Seg.M 0 0], mode := Mode.editPoints } 0 0)
            5 5)
          6 6)).undoStack.length = 2 ∧ (2 : ℕ) ≠ 1 := by
  exact ⟨by decide, by decide⟩

/-- C4 (amended): no snapshot is taken when the press selects a point;
instead every processed move event of the gesture pushes one snapshot of
the (unchanged) path, so a gesture with k processed move events pushes
exactly k snapshots (here below the 50 cap). -/
theorem c4_snapshot_per_move (cw ch : ℚ) (st : AppState) (moves : List (ℚ × ℚ))
    (hd : st.dragging = true) (hs : st.selectedPointIndex.isSome = true)
    (hcap : st.undoStack.length + moves.length ≤ 50) :
    (∀ pts x y,
      (handleCanvasClick
          { st with points := pts, mode := Mode.editPoints, dragging := false }
          x y).undoStack = st.undoStack) ∧
    (processMoves cw ch moves st).points = st.points ∧
    (processMoves cw ch moves st).undoStack =
      st.undoStack ++ List.replicate moves.length st.points := by
  refine ⟨?_, ?_⟩
  · intro pts x y
    unfold handleCanvasClick
    cases hh : hitTest pts x y <;> simp [hh]
  · induction moves generalizing st with
    | nil => simp [processMoves]
    | cons m ms ih =>
        have hdrag := drag_eq_saveState cw ch st m.1 m.2 hd hs
        have hlen : ¬ 50 < (st.undoStack ++ [st.points]).length := by
          simp [List.length_append]
          simp [List.length_cons] at hcap
          omega
        have hsave_undo : (saveState st).undoStack = st.undoStack ++ [st.points] := by
          unfold saveState
          simp only [if_neg hlen]
        have h1 := ih (saveState st) (by rw [saveState_dragging]; exact hd)
          (by rw [saveState_selected]; exact hs)
          (by
            rw [hsave_undo]
            simp [List.length_append]
            simp [List.length_cons] at hcap
            omega)
        rw [processMoves_cons, hdrag]
        constructor
        · rw [h1.1, saveState_points]
        · rw [h1.2, hsave_undo, saveState_points, List.length_cons,
            List.replicate_succ, List.append_assoc]
          rfl

/-- C4 witness: two move events over the drag fixture push exactly two
snapshots and leave the path unchanged. -/
theorem c4_snapshot_per_move_witness :
    dragFixture.dragging = true ∧ dragFixture.selectedPointIndex.isSome = true ∧
    dragFixture.undoStack.length + 2 ≤ 50 ∧
    (processMoves 800 600 [(5, 5), (6, 6)] dragFixture).points = dragFixture.points ∧
    (processMoves 800 600 [(5, 5), (6, 6)] dragFixture).undoStack =
      dragFixture.undoStack ++ List.replicate 2 dragFixture.points := by
  refine ⟨rfl, rfl, by decide, ?_, ?_⟩
  · exact (c4_snapshot_per_move 800 600 dragFixture [(5, 5), (6, 6)] rfl rfl
      (by decide)).2.1
  · exact (c4_snapshot_per_move 800 600 dragFixture [(5, 5), (6, 6)] rfl rfl
      (by decide)).2.2

unseal Rat.mul Rat.add Rat.sub Rat.inv in
/-- C2: evaluation at the failing input of the claim. Loading
`M1,1 Q5,5 9,9` over the live path `[M 5 5]` reports the
unsupported-command failure, but the live path afterwards is the
partially parsed prefix `[M 1 1]` rather than the untouched `[M 5 5]`
(which survives only as the new undo entry): `loadPathData` clears and
fills `this.points` before the parse can fail. -/
theorem c2_failure_mutates_path :
    loadPathData 800 600 { initState with points := [Seg.M 5 5] } "M1,1 Q5,5 9,9"
      = ({ initState with points := [Seg.M 1 1], undoStack := [[Seg.M 5 5]] },
          some ("Error loading path: Unsupported path command: Q")) ∧
    (Seg.M 1 1) ≠ (Seg.M 5 5) := by
  exact ⟨by decide, by decide⟩

unseal Rat.mul Rat.add Rat.sub Rat.inv in
/-- C3 counterexample: loading the path text `C1,2 3,4 5,6` succeeds and
puts a live path into the editor that starts with a CubicTo segment, so
a reachable non-empty path need not begin with a MoveTo. -/
theorem c3_parse_breaks_invariant :
    wellFormed (loadPathData 800 600 initState "C1,2 3,4 5,6").1.points = false ∧
    (loadPathData 800 600 initState "C1,2 3,4 5,6").1.points
      = [Seg.C 150 50 400 300 650 550] := by
  exact ⟨by decide, by decide⟩

/- ## Chain invariant preservation -/

theorem wellFormed_append_C (pts : List Seg) (a b c d x y : ℚ)
    (h : wellFormed pts = true) (hne : pts ≠ []) :
    wellFormed (pts ++ [Seg.C a b c d x y]) = true := by
  cases pts with
  | nil => exact absurd rfl hne
  | cons s rest =>
      simp only [wellFormed, Bool.and_eq_true] at h
      simp only [List.cons_append, wellFormed, List.all_append, Bool.and_eq_true]
      exact ⟨h.1, h.2, by simp [segIsC]⟩

theorem clickAppend_wf (x y : ℚ) (pts : List Seg) (h : wellFormed pts = true) :
    wellFormed (clickAppend x y pts) = true := by
  unfold clickAppend
  by_cases hc : pts.length = 0
  · have hnil : pts = [] := List.length_eq_zero.mp hc
    subst hnil
    simp [wellFormed, segIsM]
  · rw [if_neg hc]
    exact wellFormed_append_C _ _ _ _ _ _ _ h
      (by intro hnil; subst hnil; simp at hc)

theorem segIsM_scale (s ox oy : ℚ) (g : Seg) : segIsM (scaleSeg s ox oy g) = segIsM g := by
  cases g <;> rfl

theorem segIsC_scale (s ox oy : ℚ) (g : Seg) : segIsC (scaleSeg s ox oy g) = segIsC g := by
  cases g <;> rfl

theorem all_isC_map_scale (s ox oy : ℚ) : ∀ rest : List Seg,
    (rest.map (scaleSeg s ox oy)).all segIsC = rest.all segIsC := by
  intro rest
  induction rest with
  | nil => rfl
  | cons g t ih => simp [List.all_cons, segIsC_scale, ih]

theorem wellFormed_map_scale (s ox oy : ℚ) (pts : List Seg) :
    wellFormed (pts.map (scaleSeg s ox oy)) = wellFormed pts := by
  cases pts with
  | nil => rfl
  | cons g rest =>
      simp only [List.map_cons, wellFormed, segIsM_scale, all_isC_map_scale]

theorem normalizePath_wf (cw ch : ℚ) (pts : List Seg) (h : wellFormed pts = true) :
    wellFormed (normalizePath cw ch pts) = true := by
  unfold normalizePath
  by_cases hc : pts.isEmpty
  · rw [if_pos hc]; exact h
  · rw [if_neg hc]
    rw [wellFormed_map_scale]
    exact h

theorem all_wf_sub {l m : List (List Seg)} (hs : m ⊆ l) (h : l.all wellFormed = true) :
    m.all wellFormed = true := by
  rw [List.all_eq_true] at h ⊢
  exact fun x hx => h x (hs hx)

theorem saveState_wfState (st : AppState) (h : wfState st = true) :
    wfState (saveState st) = true := by
  simp only [wfState, Bool.and_eq_true] at h
  obtain ⟨⟨h1, h2⟩, h3⟩ := h
  have hall : (st.undoStack ++ [st.points]).all wellFormed = true := by
    rw [List.all_append]
    simp [h2, h1]
  simp only [wfState, Bool.and_eq_true]
  refine ⟨⟨h1, ?_⟩, ?_⟩
  · show (saveState st).undoStack.all wellFormed = true
    unfold saveState
    by_cases hc : 50 < (st.undoStack ++ [st.points]).length
    · simp only [if_pos hc]
      exact all_wf_sub (List.drop_subset _ _) hall
    · simp only [if_neg hc]
      exact hall
  · rfl

theorem applyMut_wfState (f : List Seg → List Seg) (st : AppState)
    (h : wfState st = true) (hf : wellFormed (f st.points) = true) :
    wfState (applyMut f st) = true := by
  have hs := saveState_wfState st h
  simp only [wfState, Bool.and_eq_true] at hs ⊢
  exact ⟨⟨hf, hs.1.2⟩, hs.2⟩

theorem undo_wfState (st : AppState) (h : wfState st = true) :
    wfState (undo st) = true := by
  simp only [wfState, Bool.and_eq_true] at h
  obtain ⟨⟨h1, h2⟩, h3⟩ := h
  unfold undo
  cases hl : st.undoStack.getLast? with
  | none =>
      simp only [wfState, Bool.and_eq_true]
      exact ⟨⟨h1, h2⟩, h3⟩
  | some prev =>
      simp only [wfState, Bool.and_eq_true]
      refine ⟨⟨?_, ?_⟩, ?_⟩
      · exact (List.all_eq_true.mp h2) prev (List.mem_of_getLast?_eq_some hl)
      · exact all_wf_sub (List.dropLast_subset _) h2
      · rw [List.all_append]
        simp [h3, h1]

theorem redo_wfState (st : AppState) (h : wfState st = true) :
    wfState (redo st) = true := by
  simp only [wfState, Bool.and_eq_true] at h
  obtain ⟨⟨h1, h2⟩, h3⟩ := h
  unfold redo
  cases hl : st.redoStack.getLast? with
  | none =>
      simp only [wfState, Bool.and_eq_true]
      exact ⟨⟨h1, h2⟩, h3⟩
  | some nxt =>
      simp only [wfState, Bool.and_eq_true]
      refine ⟨⟨?_, ?_⟩, ?_⟩
      · exact (List.all_eq_true.mp h3) nxt (List.mem_of_getLast?_eq_some hl)
      · rw [List.all_append]
        simp [h2, h1]
      · exact all_wf_sub (List.dropLast_subset _) h3

theorem clearCanvas_wfState (st : AppState) (h : wfState st = true) :
    wfState (clearCanvas st) = true := by
  unfold clearCanvas
  by_cases hc : 0 < st.points.length
  · rw [if_pos hc]
    have hs := saveState_wfState st h
    simp only [wfState, Bool.and_eq_true] at hs ⊢
    exact ⟨⟨rfl, hs.1.2⟩, hs.2⟩
  · rw [if_neg hc]
    simp only [wfState, Bool.and_eq_true] at h ⊢
    exact ⟨⟨rfl, h.1.2⟩, h.2⟩

theorem click_wfState (st : AppState) (x y : ℚ) (h : wfState st = true) :
    wfState (handleCanvasClick st x y) = true := by
  unfold handleCanvasClick
  cases hm : st.mode with
  | addPoints =>
      refine applyMut_wfState _ _ h ?_
      exact clickAppend_wf x y st.points
        (by simp only [wfState, Bool.and_eq_true] at h; exact h.1.1)
  | editPoints =>
      cases hh : hitTest st.points x y with
      | none => exact h
      | some sel =>
          simp only [wfState, Bool.and_eq_true] at h ⊢
          exact h

theorem drag_wfState (cw ch : ℚ) (st : AppState) (ex ey : ℚ) (h : wfState st = true) :
    wfState (handleCanvasDrag cw ch st ex ey) = true := by
  unfold handleCanvasDrag
  by_cases hd : st.dragging = false
  · rw [if_pos hd]; exact h
  · rw [if_neg hd]
    cases hsel : st.selectedPointIndex with
    | none => exact h
    | some sel =>
        have hg : ¬ legthGuard sel.1 = true := by simp [legthGuard]
        simp only [if_neg hg]
        exact saveState_wfState st h

unseal Rat.mul Rat.add Rat.sub Rat.inv in
/-- C3 (amended): the chain invariant (a non-empty path starts with one
MoveTo followed only by CubicTo segments) is preserved, on the live path
and on every history entry, by point appending, drag editing, release,
clear, fit-to-canvas, undo and redo; the parse operation, however, can
install an ill-formed path (see the counterexample), so the invariant
does not extend to paths reached through load. -/
theorem c3_invariant_non_parse_ops (cw ch : ℚ) (st : AppState) (x y : ℚ)
    (h : wfState st = true) :
    wfState (handleCanvasClick st x y) = true ∧
    wfState (handleCanvasDrag cw ch st x y) = true ∧
    wfState (handleCanvasRelease st) = true ∧
    wfState (clearCanvas st) = true ∧
    wfState (fitToCanvas cw ch st) = true ∧
    wfState (undo st) = true ∧
    wfState (redo st) = true := by
  refine ⟨click_wfState st x y h, drag_wfState cw ch st x y h, h,
    clearCanvas_wfState st h, ?_, undo_wfState st h, redo_wfState st h⟩
  refine applyMut_wfState _ _ h ?_
  exact normalizePath_wf cw ch st.points
    (by simp only [wfState, Bool.and_eq_true] at h; exact h.1.1)

/-- C3 witness: the preserved operations applied to the initial state. -/
theorem c3_invariant_non_parse_ops_witness :
    wfState initState = true ∧
    wfState (handleCanvasClick initState 1 2) = true := by
  exact ⟨rfl, (c3_invariant_non_parse_ops 800 600 initState 1 2 rfl).1⟩

/- ## Hit testing -/

theorem my_find?_append {α : Type} (p : α → Bool) :
    ∀ l1 l2 : List α, (l1 ++ l2).find? p
      = (match l1.find? p with
         | some a => some a
         | none => l2.find? p) := by
  intro l1 l2
  induction l1 with
  | nil => simp
  | cons a t ih =>
      by_cases hp : p a
      · simp [List.find?_cons, hp]
      · simp [List.find?_cons, hp, ih]

theorem hitTestAux_spec (x y : ℚ) : ∀ (pts : List Seg) (i : ℕ),
    hitTestAux x y i pts =
      ((hitCandidatesFrom i pts).find?
        (fun c => decide ((x - c.2.1) ^ 2 + (y - c.2.2) ^ 2 < 100))).map Prod.fst := by
  intro pts
  induction pts with
  | nil => intro i; rfl
  | cons s tl ih =>
      intro i
      rw [hitTestAux, hitCandidatesFrom, my_find?_append]
      cases s with
      | M px py =>
          simp only [segPts, List.enum]
          by_cases hp : (x - px) ^ 2 + (y - py) ^ 2 < 100
          · simp [segHit, hp, List.find?_cons]
          · simp [segHit, hp, List.find?_cons, ih (i + 1)]
      | C a b c d ex ey =>
          simp only [segPts, List.enum]
          by_cases h1 : (x - a) ^ 2 + (y - b) ^ 2 < 100
          · simp [segHit, h1, List.find?_cons]
          · by_cases h2 : (x - c) ^ 2 + (y - d) ^ 2 < 100
            · simp [segHit, h1, h2, List.find?_cons]
            · by_cases h3 : (x - ex) ^ 2 + (y - ey) ^ 2 < 100
              · simp [segHit, h1, h2, h3, List.find?_cons]
              · simp [segHit, h1, h2, h3, List.find?_cons, ih (i + 1)]

unseal Rat.mul Rat.add Rat.sub Rat.inv in
/-- C5: the hit test scans segments in index order, testing the single
point of a MoveTo and the three points control1, control2, to of a
CubicTo in that order, and returns the first (index, role) pair whose
point lies strictly within Euclidean distance 10 of the query (the
strictness is what the worked example of the claim forces); on the
example path, a query at (20, 20) hits the `to` role (role 2) of segment
1, not `control2` (role 1), which lies at distance exactly 10. -/
theorem c5_hitTest_first_match :
    (∀ (pts : List Seg) (x y : ℚ), hitTest pts x y = hitTestSpec pts x y) ∧
    hitTest examplePath 20 20 = some (1, 2) := by
  constructor
  · intro pts x y
    exact hitTestAux_spec x y pts 0
  · decide

/- ## Point appending -/

theorem getPrev_concat (front : List Seg) (last : Seg) :
    getPreviousEndpoint (front ++ [last]) (front ++ [last]).length
      = segEndpoint last := by
  unfold getPreviousEndpoint
  have hne : ¬ (front ++ [last]).length = 0 := by simp
  rw [if_neg hne]
  have hidx : (front ++ [last]).length - 1 = front.length := by simp
  rw [hidx, List.get?_concat_length]

/-- C6: appendPoint appends MoveTo on an empty path; on a non-empty path
it appends a CubicTo whose control points lie at one third and two
thirds of the straight line from the previous endpoint E to the new
point, with endpoint the new point. -/
theorem c6_appendPoint_thirds (st : AppState) (x y : ℚ)
    (hm : st.mode = Mode.addPoints) :
    (st.points = [] → (handleCanvasClick st x y).points = [Seg.M x y]) ∧
    (∀ front last, st.points = front ++ [last] →
      (handleCanvasClick st x y).points =
        st.points ++
          [Seg.C ((segEndpoint last).1 + (x - (segEndpoint last).1) / 3)
            ((segEndpoint last).2 + (y - (segEndpoint last).2) / 3)
            ((segEndpoint last).1 + 2 * (x - (segEndpoint last).1) / 3)
            ((segEndpoint last).2 + 2 * (y - (segEndpoint last).2) / 3) x y]) := by
  have hclick : (handleCanvasClick st x y).points = clickAppend x y st.points := by
    unfold handleCanvasClick
    rw [hm]
    rfl
  constructor
  · intro hnil
    rw [hclick, hnil]
    simp [clickAppend]
  · intro front last hsplit
    rw [hclick, hsplit]
    unfold clickAppend
    rw [if_neg (by simp)]
    rw [getPrev_concat]

/-- C6 witness: appending (30, 30) after endpoint (20, 20) adds the
CubicTo with control points (70/3, 70/3) and (80/3, 80/3) — printed as
23.33 and 26.67 at 2-decimal precision. -/
theorem c6_appendPoint_thirds_witness :
    addFixture.mode = Mode.addPoints ∧
    addFixture.points = [Seg.M 10 10] ++ [Seg.C 0 0 0 0 20 20] ∧
    (handleCanvasClick addFixture 30 30).points =
      addFixture.points ++ [Seg.C (70/3) (70/3) (80/3) (80/3) 30 30] := by
  refine ⟨rfl, rfl, ?_⟩
  have h := (c6_appendPoint_thirds addFixture 30 30 rfl).2 [Seg.M 10 10]
    (Seg.C 0 0 0 0 20 20) rfl
  rw [h]
  norm_num [segEndpoint]

/- ## The history cap -/

theorem preStates_length : ∀ (fs : List (List Seg → List Seg)) (p : List Seg),
    (preStates fs p).length = fs.length := by
  intro fs
  induction fs with
  | nil => intro p; rfl
  | cons f t ih => intro p; simp [preStates, ih]

theorem runMuts_cons (f : List Seg → List Seg) (fs : List (List Seg → List Seg))
    (st : AppState) : runMuts (f :: fs) st = runMuts fs (applyMut f st) := rfl

theorem runMuts_undoStack : ∀ (fs : List (List Seg → List Seg)) (st : AppState),
    st.undoStack.length ≤ 50 →
    (runMuts fs st).undoStack =
      (st.undoStack ++ preStates fs st.points).drop
        (st.undoStack.length + fs.length - 50) ∧
    (runMuts fs st).undoStack.length = min (st.undoStack.length + fs.length) 50 := by
  intro fs
  induction fs with
  | nil =>
      intro st h
      constructor
      · simp only [runMuts, List.foldl_nil, preStates, List.append_nil, List.length_nil]
        have h0 : st.undoStack.length + 0 - 50 = 0 := by omega
        rw [h0, List.drop_zero]
      · simp only [runMuts, List.foldl_nil, List.length_nil]
        omega
  | cons f t ih =>
      intro st h
      have hA : (applyMut f st).undoStack =
          (st.undoStack ++ [st.points]).drop (st.undoStack.length + 1 - 50) :=
        saveState_undoStack st h
      have hAlen : (applyMut f st).undoStack.length =
          min (st.undoStack.length + 1) 50 :=
        saveState_undoStack_length st h
      have hAle : (applyMut f st).undoStack.length ≤ 50 := by omega
      have hApts : (applyMut f st).points = f st.points := rfl
      obtain ⟨ih1, ih2⟩ := ih (applyMut f st) hAle
      rw [runMuts_cons]
      constructor
      · rw [ih1, hA, hApts]
        have hsplit : st.undoStack ++ preStates (f :: t) st.points
            = (st.undoStack ++ [st.points]) ++ preStates t (f st.points) := by
          simp [preStates]
        rw [hsplit]
        rw [← List.drop_append_of_le_length
          (show st.undoStack.length + 1 - 50 ≤ (st.undoStack ++ [st.points]).length by
            simp [List.length_append]
            omega)]
        rw [List.drop_drop]
        congr 1
        simp only [List.length_drop, List.length_append, List.length_cons,
          List.length_nil]
        omega
      · rw [ih2]
        simp only [List.length_cons]
        omega

unseal Rat.mul Rat.add Rat.sub Rat.inv in
/-- C8: every history-wrapped mutating operation (append click, fit to
canvas, clear on a non-empty path — and the bare `saveState` they all
share) pushes the pre-mutation path onto the undo stack and clears the
redo stack, with the oldest entry shifted out beyond 50 entries; and 60
sequential mutations from the initial state leave the undo stack holding
exactly the 50 most recent pre-mutation paths. -/
theorem c8_history_push_cap :
    (∀ st : AppState, st.undoStack.length ≤ 50 →
      (saveState st).undoStack =
        (st.undoStack ++ [st.points]).drop (st.undoStack.length + 1 - 50) ∧
      (saveState st).redoStack = [] ∧ (saveState st).points = st.points) ∧
    (∀ (x y : ℚ) (st : AppState), st.mode = Mode.addPoints →
      handleCanvasClick st x y = applyMut (clickAppend x y) st) ∧
    (∀ (cw ch : ℚ) (st : AppState),
      fitToCanvas cw ch st = applyMut (normalizePath cw ch) st) ∧
    (∀ st : AppState, 0 < st.points.length →
      clearCanvas st = applyMut (fun _ => []) st) ∧
    (∀ fs : List (List Seg → List Seg), fs.length = 60 →
      (runMuts fs initState).undoStack = (preStates fs initState.points).drop 10 ∧
      (runMuts fs initState).undoStack.length = 50) := by
  refine ⟨?_, ?_, ?_, ?_, ?_⟩
  · intro st h
    exact ⟨saveState_undoStack st h, rfl, rfl⟩
  · intro x y st hm
    unfold handleCanvasClick
    rw [hm]
  · intro cw ch st
    rfl
  · intro st h
    unfold clearCanvas
    rw [if_pos h]
    rfl
  · intro fs h60
    obtain ⟨h1, h2⟩ := runMuts_undoStack fs initState (by simp [initState])
    constructor
    · rw [h1, h60]
      simp [initState]
    · rw [h2, h60]
      simp [initState]

/-- C8 witness: 60 appends of the same segment starting from the initial
state leave exactly 50 undo entries. -/
theorem c8_history_push_cap_witness :
    (List.replicate 60 (fun p => p ++ [Seg.M 1 1]) : List (List Seg → List Seg)).length
      = 60 ∧
    (runMuts (List.replicate 60 (fun p => p ++ [Seg.M 1 1]))
      initState).undoStack.length = 50 := by
  refine ⟨by simp, ?_⟩
  exact (c8_history_push_cap.2.2.2.2
    (List.replicate 60 (fun p => p ++ [Seg.M 1 1])) (by simp)).2

/- ## Geometry normalization -/

theorem segPts_scale (s ox oy : ℚ) (g : Seg) :
    segPts (scaleSeg s ox oy g)
      = (segPts g).map (fun p => (p.1 * s + ox, p.2 * s + oy)) := by
  cases g <;> rfl

theorem segPtsList_map_scale (s ox oy : ℚ) : ∀ pts : List Seg,
    segPtsList (pts.map (scaleSeg s ox oy))
      = (segPtsList pts).map (fun p => (p.1 * s + ox, p.2 * s + oy)) := by
  intro pts
  induction pts with
  | nil => rfl
  | cons g t ih => simp [segPtsList, segPts_scale, ih]

theorem segPtsList_ne_nil (pts : List Seg) (h : pts ≠ []) : segPtsList pts ≠ [] := by
  cases pts with
  | nil => exact absurd rfl h
  | cons g t => cases g <;> simp [segPtsList, segPts]

theorem min_affine (s o a b : ℚ) (hs : 0 ≤ s) :
    min (a * s + o) (b * s + o) = min a b * s + o := by
  rcases le_total a b with h | h
  · rw [min_eq_left h, min_eq_left (add_le_add_right (mul_le_mul_of_nonneg_right h hs) o)]
  · rw [min_eq_right h, min_eq_right (add_le_add_right (mul_le_mul_of_nonneg_right h hs) o)]

theorem max_affine (s o a b : ℚ) (hs : 0 ≤ s) :
    max (a * s + o) (b * s + o) = max a b * s + o := by
  rcases le_total a b with h | h
  · rw [max_eq_right h, max_eq_right (add_le_add_right (mul_le_mul_of_nonneg_right h hs) o)]
  · rw [max_eq_left h, max_eq_left (add_le_add_right (mul_le_mul_of_nonneg_right h hs) o)]

theorem foldl_min_affine (s o : ℚ) (hs : 0 ≤ s) : ∀ (l : List ℚ) (a : ℚ),
    (l.map (fun v => v * s + o)).foldl min (a * s + o) = l.foldl min a * s + o := by
  intro l
  induction l with
  | nil => intro a; rfl
  | cons v t ih =>
      intro a
      simp only [List.map_cons, List.foldl_cons]
      rw [min_affine s o a v hs, ih]

theorem foldl_max_affine (s o : ℚ) (hs : 0 ≤ s) : ∀ (l : List ℚ) (a : ℚ),
    (l.map (fun v => v * s + o)).foldl max (a * s + o) = l.foldl max a * s + o := by
  intro l
  induction l with
  | nil => intro a; rfl
  | cons v t ih =>
      intro a
      simp only [List.map_cons, List.foldl_cons]
      rw [max_affine s o a v hs, ih]

theorem foldFirst_min_affine (s o : ℚ) (hs : 0 ≤ s) (l : List ℚ) (hne : l ≠ []) :
    foldFirst min (l.map (fun v => v * s + o)) = foldFirst min l * s + o := by
  cases l with
  | nil => exact absurd rfl hne
  | cons x xs =>
      simp only [List.map_cons, foldFirst]
      exact foldl_min_affine s o hs xs x

theorem foldFirst_max_affine (s o : ℚ) (hs : 0 ≤ s) (l : List ℚ) (hne : l ≠ []) :
    foldFirst max (l.map (fun v => v * s + o)) = foldFirst max l * s + o := by
  cases l with
  | nil => exact absurd rfl hne
  | cons x xs =>
      simp only [List.map_cons, foldFirst]
      exact foldl_max_affine s o hs xs x

theorem minXOf_map_scale (s ox oy : ℚ) (hs : 0 ≤ s) (pts : List Seg) (hne : pts ≠ []) :
    minXOf (pts.map (scaleSeg s ox oy)) = minXOf pts * s + ox := by
  unfold minXOf
  rw [segPtsList_map_scale, List.map_map]
  have hco : (Prod.fst ∘ fun p : ℚ × ℚ => (p.1 * s + ox, p.2 * s + oy))
      = (fun v => v * s + ox) ∘ Prod.fst := rfl
  rw [hco, ← List.map_map]
  exact foldFirst_min_affine s ox hs _
    (by
      intro hmap
      exact segPtsList_ne_nil pts hne (List.map_eq_nil_iff.mp hmap))

theorem maxXOf_map_scale (s ox oy : ℚ) (hs : 0 ≤ s) (pts : List Seg) (hne : pts ≠ []) :
    maxXOf (pts.map (scaleSeg s ox oy)) = maxXOf pts * s + ox := by
  unfold maxXOf
  rw [segPtsList_map_scale, List.map_map]
  have hco : (Prod.fst ∘ fun p : ℚ × ℚ => (p.1 * s + ox, p.2 * s + oy))
      = (fun v => v * s + ox) ∘ Prod.fst := rfl
  rw [hco, ← List.map_map]
  exact foldFirst_max_affine s ox hs _
    (by
      intro hmap
      exact segPtsList_ne_nil pts hne (List.map_eq_nil_iff.mp hmap))

theorem minYOf_map_scale (s ox oy : ℚ) (hs : 0 ≤ s) (pts : List Seg) (hne : pts ≠ []) :
    minYOf (pts.map (scaleSeg s ox oy)) = minYOf pts * s + oy := by
  unfold minYOf
  rw [segPtsList_map_scale, List.map_map]
  have hco : (Prod.snd ∘ fun p : ℚ × ℚ => (p.1 * s + ox, p.2 * s + oy))
      = (fun v => v * s + oy) ∘ Prod.snd := rfl
  rw [hco, ← List.map_map]
  exact foldFirst_min_affine s oy hs _
    (by
      intro hmap
      exact segPtsList_ne_nil pts hne (List.map_eq_nil_iff.mp hmap))

theorem maxYOf_map_scale (s ox oy : ℚ) (hs : 0 ≤ s) (pts : List Seg) (hne : pts ≠ []) :
    maxYOf (pts.map (scaleSeg s ox oy)) = maxYOf pts * s + oy := by
  unfold maxYOf
  rw [segPtsList_map_scale, List.map_map]
  have hco : (Prod.snd ∘ fun p : ℚ × ℚ => (p.1 * s + ox, p.2 * s + oy))
      = (fun v => v * s + oy) ∘ Prod.snd := rfl
  rw [hco, ← List.map_map]
  exact foldFirst_max_affine s oy hs _
    (by
      intro hmap
      exact segPtsList_ne_nil pts hne (List.map_eq_nil_iff.mp hmap))

theorem scaleSeg_id (g : Seg) : scaleSeg 1 0 0 g = g := by
  cases g <;> simp [scaleSeg]

theorem normalizePath_eq (cw ch : ℚ) (pts : List Seg) (hne : pts ≠ [])
    (hw : ¬ maxXOf pts - minXOf pts = 0) (hh : ¬ maxYOf pts - minYOf pts = 0) :
    normalizePath cw ch pts =
      pts.map
        (scaleSeg
          (min ((cw - 2 * 50) / (maxXOf pts - minXOf pts))
            ((ch - 2 * 50) / (maxYOf pts - minYOf pts)))
          ((cw - (maxXOf pts - minXOf pts)
              * min ((cw - 2 * 50) / (maxXOf pts - minXOf pts))
                  ((ch - 2 * 50) / (maxYOf pts - minYOf pts))) / 2
            - minXOf pts
              * min ((cw - 2 * 50) / (maxXOf pts - minXOf pts))
                  ((ch - 2 * 50) / (maxYOf pts - minYOf pts)))
          ((ch - (maxYOf pts - minYOf pts)
              * min ((cw - 2 * 50) / (maxXOf pts - minXOf pts))
                  ((ch - 2 * 50) / (maxYOf pts - minYOf pts))) / 2
            - minYOf pts
              * min ((cw - 2 * 50) / (maxXOf pts - minXOf pts))
                  ((ch - 2 * 50) / (maxYOf pts - minYOf pts)))) := by
  have hF : pts.isEmpty = false := List.isEmpty_eq_false.mpr hne
  unfold normalizePath
  simp only [hF, Bool.false_eq_true, if_false, if_neg hw, if_neg hh]

unseal Rat.mul Rat.add Rat.sub Rat.inv in
/-- C9 counterexample: on a path whose bounding box extents are one half,
the source computes the scale against the true (sub-unit) extents, while
the claimed computation floors the extents at 1; the two results differ,
so the scale is not computed with extents floored at 1. -/
theorem c9_scale_not_floored :
    normalizePath 800 600 [Seg.M 0 0, Seg.C (1/4) (1/4) (1/2) (1/2) (1/2) (1/2)]
      ≠ normalizePathFloored 800 600
          [Seg.M 0 0, Seg.C (1/4) (1/4) (1/2) (1/2) (1/2) (1/2)] := by
  decide

/-- C9 (amended): for a non-empty path whose bounding box has positive
width and height, and a viewport wider and taller than twice the padding
50, one `normalizePath` centres the bounding box in the viewport inside
the padding, and a second application is exactly the identity (zero
extents are replaced by 1; extents strictly between 0 and 1 are used as
they are, not floored at 1). -/
theorem c9_normalize_idempotent (cw ch : ℚ) (pts : List Seg) (hne : pts ≠ [])
    (hw : 0 < maxXOf pts - minXOf pts) (hh : 0 < maxYOf pts - minYOf pts)
    (hcw : 0 < cw - 2 * 50) (hch : 0 < ch - 2 * 50) :
    normalizePath cw ch (normalizePath cw ch pts) = normalizePath cw ch pts ∧
    minXOf (normalizePath cw ch pts) + maxXOf (normalizePath cw ch pts) = cw ∧
    minYOf (normalizePath cw ch pts) + maxYOf (normalizePath cw ch pts) = ch ∧
    50 ≤ minXOf (normalizePath cw ch pts) ∧
    maxXOf (normalizePath cw ch pts) ≤ cw - 50 ∧
    50 ≤ minYOf (normalizePath cw ch pts) ∧
    maxYOf (normalizePath cw ch pts) ≤ ch - 50 := by
  have hwne : ¬ maxXOf pts - minXOf pts = 0 := ne_of_gt hw
  have hhne : ¬ maxYOf pts - minYOf pts = 0 := ne_of_gt hh
  set w := maxXOf pts - minXOf pts with hwdef
  set hg := maxYOf pts - minYOf pts with hgdef
  set S := min ((cw - 2 * 50) / w) ((ch - 2 * 50) / hg) with hSdef
  have hSpos : 0 < S := lt_min (div_pos hcw hw) (div_pos hch hh)
  set OX := (cw - w * S) / 2 - minXOf pts * S with hOXdef
  set OY := (ch - hg * S) / 2 - minYOf pts * S with hOYdef
  have h1 : normalizePath cw ch pts = pts.map (scaleSeg S OX OY) :=
    normalizePath_eq cw ch pts hne hwne hhne
  have hne2 : pts.map (scaleSeg S OX OY) ≠ [] := by
    simp [List.map_eq_nil_iff]
    exact hne
  have hmX : minXOf (pts.map (scaleSeg S OX OY)) = minXOf pts * S + OX :=
    minXOf_map_scale S OX OY hSpos.le pts hne
  have hMX : maxXOf (pts.map (scaleSeg S OX OY)) = maxXOf pts * S + OX :=
    maxXOf_map_scale S OX OY hSpos.le pts hne
  have hmY : minYOf (pts.map (scaleSeg S OX OY)) = minYOf pts * S + OY :=
    minYOf_map_scale S OX OY hSpos.le pts hne
  have hMY : maxYOf (pts.map (scaleSeg S OX OY)) = maxYOf pts * S + OY :=
    maxYOf_map_scale S OX OY hSpos.le pts hne
  have hmX2 : minXOf pts * S + OX = (cw - w * S) / 2 := by
    rw [hOXdef]
    ring
  have hMX2 : maxXOf pts * S + OX = (cw + w * S) / 2 := by
    rw [hOXdef, hwdef]
    ring
  have hmY2 : minYOf pts * S + OY = (ch - hg * S) / 2 := by
    rw [hOYdef]
    ring
  have hMY2 : maxYOf pts * S + OY = (ch + hg * S) / 2 := by
    rw [hOYdef, hgdef]
    ring
  have hwS : w * S ≤ cw - 2 * 50 := by
    have h3 : S ≤ (cw - 2 * 50) / w := min_le_left _ _
    calc w * S ≤ w * ((cw - 2 * 50) / w) := by
          exact mul_le_mul_of_nonneg_left h3 hw.le
      _ = cw - 2 * 50 := by field_simp
  have hhS : hg * S ≤ ch - 2 * 50 := by
    have h3 : S ≤ (ch - 2 * 50) / hg := min_le_right _ _
    calc hg * S ≤ hg * ((ch - 2 * 50) / hg) := by
          exact mul_le_mul_of_nonneg_left h3 hh.le
      _ = ch - 2 * 50 := by field_simp
  have hwSpos : 0 < w * S := mul_pos hw hSpos
  have hhSpos : 0 < hg * S := mul_pos hh hSpos
  refine ⟨?_, ?_, ?_, ?_, ?_, ?_, ?_⟩
  · -- idempotence
    rw [h1]
    have e1 : maxXOf (pts.map (scaleSeg S OX OY)) - minXOf (pts.map (scaleSeg S OX OY))
        = w * S := by
      rw [hMX, hmX, hmX2, hMX2]
      ring
    have e2 : maxYOf (pts.map (scaleSeg S OX OY)) - minYOf (pts.map (scaleSeg S OX OY))
        = hg * S := by
      rw [hMY, hmY, hmY2, hMY2]
      ring
    rw [normalizePath_eq cw ch _ hne2 (by rw [e1]; exact ne_of_gt hwSpos)
      (by rw [e2]; exact ne_of_gt hhSpos)]
    rw [e1, e2]
    have hS2 : min ((cw - 2 * 50) / (w * S)) ((ch - 2 * 50) / (hg * S)) = 1 := by
      rw [← div_div, ← div_div, min_div_div_right hSpos.le]
      rw [← hSdef]
      exact div_self (ne_of_gt hSpos)
    rw [hS2]
    have hOX2 : (cw - w * S * 1) / 2 - minXOf (pts.map (scaleSeg S OX OY)) * 1 = 0 := by
      rw [hmX, hmX2]
      ring
    have hOY2 : (ch - hg * S * 1) / 2 - minYOf (pts.map (scaleSeg S OX OY)) * 1 = 0 := by
      rw [hmY, hmY2]
      ring
    rw [hOX2, hOY2]
    have : ∀ g : Seg, scaleSeg 1 0 0 g = g := scaleSeg_id
    simp [this]
  · rw [h1, hmX, hMX, hmX2, hMX2]
    ring
  · rw [h1, hmY, hMY, hmY2, hMY2]
    ring
  · rw [h1, hmX, hmX2, le_div_iff (by norm_num : (0 : ℚ) < 2)]
    linarith
  · rw [h1, hMX, hMX2, div_le_iff (by norm_num : (0 : ℚ) < 2)]
    linarith
  · rw [h1, hmY, hmY2, le_div_iff (by norm_num : (0 : ℚ) < 2)]
    linarith
  · rw [h1, hMY, hMY2, div_le_iff (by norm_num : (0 : ℚ) < 2)]
    linarith

unseal Rat.mul Rat.add Rat.sub Rat.inv in
/-- C9 witness: the example path normalized twice into the 800 by 600
canvas equals its single normalization. -/
theorem c9_normalize_idempotent_witness :
    examplePath ≠ [] ∧ 0 < maxXOf examplePath - minXOf examplePath ∧
    0 < maxYOf examplePath - minYOf examplePath ∧
    0 < (800 : ℚ) - 2 * 50 ∧ 0 < (600 : ℚ) - 2 * 50 ∧
    normalizePath 800 600 (normalizePath 800 600 examplePath)
      = normalizePath 800 600 examplePath := by
  refine ⟨by decide, by decide, by decide, by decide, by decide, ?_⟩
  exact (c9_normalize_idempotent 800 600 examplePath (by decide) (by decide)
    (by decide) (by decide) (by decide)).1

/- ## Curve sampling -/

theorem sampleAux_spec (n total : ℕ) : ∀ (tl : List Seg) (prev : Seg),
    sampleAux n total prev tl
      = sampleSpecSegs (n / max 1 (total - 1)) (segEndpoint prev) tl := by
  intro tl
  induction tl with
  | nil => intro prev; rfl
  | cons s t2 ih =>
      intro prev
      cases s with
      | M x y =>
          simp only [sampleAux, sampleSpecSegs]
          rw [ih]
          rfl
      | C a b c d ex ey =>
          simp only [sampleAux, sampleSpecSegs]
          rw [ih]
          rfl

theorem sampleSpecSegs_length_allC (pps : ℕ) : ∀ (cs : List Seg) (p0 : ℚ × ℚ),
    cs.all segIsC = true → (sampleSpecSegs pps p0 cs).length = cs.length * pps := by
  intro cs
  induction cs with
  | nil => intro p0 h; simp [sampleSpecSegs]
  | cons s t ih =>
      intro p0 h
      simp only [List.all_cons, Bool.and_eq_true] at h
      cases s with
      | M x y => simp [segIsC] at h
      | C a b c d ex ey =>
          have hlist : sampleSpecSegs pps p0 (Seg.C a b c d ex ey :: t)
              = (List.range pps).map
                  (fun (j : ℕ) => bezierB (((j : ℚ) + 1) / (pps : ℚ)) p0 (a, b) (c, d) (ex, ey))
                ++ sampleSpecSegs pps (ex, ey) t := rfl
          rw [hlist, List.length_append, List.length_map, List.length_range, ih _ h.2]
          simp [List.length_cons]
          ring

/-- C7: `samplePathPoints` on a well-formed path equals the spec-side
sampling (the MoveTo point, then for each CubicTo in order the Bezier
points B(j / budget) for j = 1 .. budget with budget
floor(n / max 1 (segmentCount - 1)) and P0 the previous endpoint); it is
a pure function of the path and n, its length is exactly
1 + (segmentCount - 1) * budget, at most n + 1, and within one
segment-budget rounding below n. -/
theorem c7_sample_spec (pts : List Seg) (n : ℕ)
    (hwf : wellFormed pts = true) (hne : pts ≠ []) :
    samplePathPoints pts n = sampleSpec pts n ∧
    (samplePathPoints pts n).length
      = 1 + (pts.length - 1) * (n / max 1 (pts.length - 1)) ∧
    (samplePathPoints pts n).length ≤ n + 1 ∧
    n < (samplePathPoints pts n).length
        + max (n / max 1 (pts.length - 1)) (pts.length - 1) := by
  obtain ⟨first, rest, rfl⟩ : ∃ f r, pts = f :: r := by
    cases pts with
    | nil => exact absurd rfl hne
    | cons f r => exact ⟨f, r, rfl⟩
  simp only [wellFormed, Bool.and_eq_true] at hwf
  obtain ⟨hM, hC⟩ := hwf
  cases first with
  | C a b c d ex ey => simp [segIsM] at hM
  | M x y =>
      have hmain : samplePathPoints (Seg.M x y :: rest) n
          = sampleSpec (Seg.M x y :: rest) n := by
        simp only [samplePathPoints, sampleSpec]
        rw [sampleAux_spec]
        rfl
      have hlen : (samplePathPoints (Seg.M x y :: rest) n).length
          = 1 + rest.length * (n / max 1 rest.length) := by
        rw [hmain]
        simp only [sampleSpec, List.length_cons, Nat.add_sub_cancel]
        rw [sampleSpecSegs_length_allC _ rest _ hC]
        omega
      have hlen2 : (Seg.M x y :: rest).length - 1 = rest.length := by
        simp
      refine ⟨hmain, ?_, ?_, ?_⟩
      · rw [hlen, hlen2]
      · rw [hlen]
        by_cases hk : rest.length = 0
        · rw [hk]
          omega
        · have hmax : max 1 rest.length = rest.length := by omega
          rw [hmax]
          have h5 : rest.length * (n / rest.length) + n % rest.length = n :=
            Nat.div_add_mod n rest.length
          have h6 : n % rest.length < rest.length := Nat.mod_lt n (by omega)
          omega
      · rw [hlen, hlen2]
        by_cases hk : rest.length = 0
        · rw [hk]
          simp
        · have hmax : max 1 rest.length = rest.length := by omega
          rw [hmax]
          have h5 : rest.length * (n / rest.length) + n % rest.length = n :=
            Nat.div_add_mod n rest.length
          have h6 : n % rest.length < rest.length := Nat.mod_lt n (by omega)
          omega

unseal Rat.mul Rat.add Rat.sub Rat.inv in
/-- C7 witness: sampling the example path with n = 9 gives the MoveTo
point and 9 Bezier points. -/
theorem c7_sample_spec_witness :
    wellFormed examplePath = true ∧ examplePath ≠ [] ∧
    (samplePathPoints examplePath 9).length
      = 1 + (examplePath.length - 1) * (9 / max 1 (examplePath.length - 1)) := by
  refine ⟨by decide, by decide, ?_⟩
  exact (c7_sample_spec examplePath 9 (by decide) (by decide)).2.1

/- ## Decimal digits and character classes -/

theorem digitChar_isDig (n : ℕ) (h : n < 10) : isDig (digitChar n) = true := by
  interval_cases n <;> decide

theorem digitChar_val (n : ℕ) (h : n < 10) : (digitChar n).toNat - 48 = n := by
  interval_cases n <;> decide

theorem natDigitsF_fi : ∀ (n f1 f2 : ℕ), n ≤ f1 → n ≤ f2 →
    natDigitsF f1 n = natDigitsF f2 n := by
  intro n
  induction n using Nat.strong_induction_on with
  | _ n ih =>
      intro f1 f2 h1 h2
      cases f1 with
      | zero =>
          cases f2 with
          | zero => rfl
          | succ g2 =>
              have hn : n = 0 := by omega
              subst hn
              simp [natDigitsF]
      | succ g1 =>
          cases f2 with
          | zero =>
              have hn : n = 0 := by omega
              subst hn
              simp [natDigitsF]
          | succ g2 =>
              simp only [natDigitsF]
              by_cases hlt : n < 10
              · simp [hlt]
              · simp only [if_neg hlt]
                rw [ih (n / 10) (Nat.div_lt_self (by omega) (by omega)) g1 g2
                  (by omega) (by omega)]

theorem natDigits_unfold (n : ℕ) :
    natDigits n = (if n < 10 then [digitChar n]
      else natDigits (n / 10) ++ [digitChar (n % 10)]) := by
  unfold natDigits
  cases hn : n with
  | zero => simp [natDigitsF]
  | succ m =>
      simp only [natDigitsF]
      by_cases h : m + 1 < 10
      · simp [h]
      · simp only [if_neg h]
        rw [natDigitsF_fi ((m + 1) / 10) m ((m + 1) / 10) (by omega) (le_refl _)]

theorem natDigits_ne_nil (n : ℕ) : natDigits n ≠ [] := by
  rw [natDigits_unfold]
  by_cases h : n < 10 <;> simp [h]

theorem natDigits_all_dig (n : ℕ) : ∀ c ∈ natDigits n, isDig c = true := by
  induction n using Nat.strong_induction_on with
  | _ n ih =>
      rw [natDigits_unfold]
      by_cases h : n < 10
      · simp only [if_pos h, List.mem_singleton]
        intro c hc
        subst hc
        exact digitChar_isDig n h
      · simp only [if_neg h, List.mem_append, List.mem_singleton]
        intro c hc
        rcases hc with hc | hc
        · exact ih (n / 10) (Nat.div_lt_self (by omega) (by omega)) c hc
        · subst hc
          exact digitChar_isDig (n % 10) (Nat.mod_lt _ (by omega))

theorem digitsVal_append_one (l : List Char) (c : Char) :
    digitsVal (l ++ [c]) = 10 * digitsVal l + (c.toNat - 48) := by
  simp [digitsVal, List.foldl_append]

theorem digitsVal_natDigits (n : ℕ) : digitsVal (natDigits n) = n := by
  induction n using Nat.strong_induction_on with
  | _ n ih =>
      rw [natDigits_unfold]
      by_cases h : n < 10
      · simp only [if_pos h]
        have h2 := digitChar_val n h
        simp [digitsVal]
        omega
      · simp only [if_neg h]
        rw [digitsVal_append_one, ih (n / 10) (Nat.div_lt_self (by omega) (by omega)),
          digitChar_val (n % 10) (Nat.mod_lt _ (by omega))]
        omega

theorem twoDigits_all_dig (n : ℕ) : ∀ c ∈ twoDigits n, isDig c = true := by
  unfold twoDigits
  by_cases h : n < 10
  · simp only [if_pos h]
    intro c hc
    rcases List.mem_cons.mp hc with hc | hc
    · subst hc; decide
    · simp at hc
      subst hc
      exact digitChar_isDig n h
  · simp only [if_neg h]
    exact natDigits_all_dig n

theorem twoDigits_ne_nil (n : ℕ) : twoDigits n ≠ [] := by
  unfold twoDigits
  by_cases h : n < 10 <;> simp [h, natDigits_ne_nil]

theorem digitsVal_twoDigits (n : ℕ) : digitsVal (twoDigits n) = n := by
  unfold twoDigits
  by_cases h : n < 10
  · simp only [if_pos h]
    have h2 := digitChar_val n h
    simp [digitsVal]
    omega
  · simp only [if_neg h]
    exact digitsVal_natDigits n

theorem twoDigits_length (n : ℕ) (h : n < 100) : (twoDigits n).length = 2 := by
  unfold twoDigits
  by_cases h1 : n < 10
  · simp [h1]
  · simp only [if_neg h1]
    rw [natDigits_unfold, if_neg h1, natDigits_unfold]
    have h2 : n / 10 < 10 := by omega
    simp [h2]

theorem isDig_not_alpha {c : Char} (h : isDig c = true) : isAsciiAlpha c = false := by
  simp [isDig] at h
  simp [isAsciiAlpha]
  omega

theorem isDig_not_sign {c : Char} (h : isDig c = true) : ¬ (c = '+' ∨ c = '-') := by
  rintro (rfl | rfl) <;> exact absurd h (by decide)

theorem isDig_not_sep {c : Char} (h : isDig c = true) : isSepChar c = false := by
  have h1 : c ≠ ' ' := fun he => absurd (he ▸ h) (by decide)
  have h2 : c ≠ '\t' := fun he => absurd (he ▸ h) (by decide)
  have h3 : c ≠ '\n' := fun he => absurd (he ▸ h) (by decide)
  have h4 : c ≠ '\r' := fun he => absurd (he ▸ h) (by decide)
  have h7 : c ≠ ',' := fun he => absurd (he ▸ h) (by decide)
  simp [isDig] at h
  simp [isSepChar, isJsSpace, h1, h2, h3, h4, h7]
  omega

theorem isDig_not_jsSpace {c : Char} (h : isDig c = true) : isJsSpace c = false := by
  have h1 : c ≠ ' ' := fun he => absurd (he ▸ h) (by decide)
  have h2 : c ≠ '\t' := fun he => absurd (he ▸ h) (by decide)
  have h3 : c ≠ '\n' := fun he => absurd (he ▸ h) (by decide)
  have h4 : c ≠ '\r' := fun he => absurd (he ▸ h) (by decide)
  simp [isDig] at h
  simp [isJsSpace, h1, h2, h3, h4]
  omega

/- ## Spans of digit runs -/

theorem takeWhile_append_all (p : Char → Bool) : ∀ (l r : List Char),
    (∀ c ∈ l, p c = true) → (l ++ r).takeWhile p = l ++ r.takeWhile p := by
  intro l
  induction l with
  | nil => intro r h; simp
  | cons c t ih =>
      intro r h
      simp only [List.cons_append, List.takeWhile_cons, h c (List.mem_cons_self c t)]
      rw [ih r (fun d hd => h d (List.mem_cons_of_mem c hd))]
      simp

theorem dropWhile_append_all (p : Char → Bool) : ∀ (l r : List Char),
    (∀ c ∈ l, p c = true) → (l ++ r).dropWhile p = r.dropWhile p := by
  intro l
  induction l with
  | nil => intro r h; simp
  | cons c t ih =>
      intro r h
      simp only [List.cons_append, List.dropWhile_cons, h c (List.mem_cons_self c t),
        if_true]
      exact ih r (fun d hd => h d (List.mem_cons_of_mem c hd))

theorem takeWhile_isDig_sep (r : List Char)
    (h : r = [] ∨ r.head? = some ' ' ∨ r.head? = some ',') :
    r.takeWhile isDig = [] ∧ r.dropWhile isDig = r := by
  rcases h with rfl | h | h
  · simp
  · cases r with
    | nil => simp at h
    | cons c t =>
        simp only [List.head?_cons, Option.some_inj] at h
        subst h
        refine ⟨?_, ?_⟩
        · simp [List.takeWhile_cons, show isDig ' ' = false from by decide]
        · simp [List.dropWhile_cons, show isDig ' ' = false from by decide]
  · cases r with
    | nil => simp at h
    | cons c t =>
        simp only [List.head?_cons, Option.some_inj] at h
        subst h
        refine ⟨?_, ?_⟩
        · simp [List.takeWhile_cons, show isDig ',' = false from by decide]
        · simp [List.dropWhile_cons, show isDig ',' = false from by decide]

/- ## The number regex on serialized coordinates -/

theorem matchCore_digits (d1 d2 r : List Char)
    (h1 : ∀ c ∈ d1, isDig c = true) (hn1 : d1 ≠ [])
    (h2 : ∀ c ∈ d2, isDig c = true) (hn2 : d2 ≠ [])
    (hr : r = [] ∨ r.head? = some ' ' ∨ r.head? = some ',') :
    matchCore (d1 ++ '.' :: (d2 ++ r)) = some (d1 ++ '.' :: d2, r) := by
  obtain ⟨ht, hd⟩ := takeWhile_isDig_sep r hr
  have e1 : List.takeWhile isDig (d1 ++ '.' :: (d2 ++ r)) = d1 := by
    rw [takeWhile_append_all _ _ _ h1]
    simp [List.takeWhile_cons, show isDig '.' = false from by decide]
  have e2 : List.dropWhile isDig (d1 ++ '.' :: (d2 ++ r)) = '.' :: (d2 ++ r) := by
    rw [dropWhile_append_all _ _ _ h1]
    simp [List.dropWhile_cons, show isDig '.' = false from by decide]
  have e3 : List.takeWhile isDig (d2 ++ r) = d2 := by
    rw [takeWhile_append_all _ _ _ h2, ht, List.append_nil]
  have e4 : List.dropWhile isDig (d2 ++ r) = r := by
    rw [dropWhile_append_all _ _ _ h2, hd]
  have e5 : d2.isEmpty = false := by simp [hn2]
  simp [matchCore, e1, e2, e3, e4, e5]

theorem matchExp_sep (m r : List Char)
    (hr : r = [] ∨ r.head? = some ' ' ∨ r.head? = some ',') :
    matchExp m r = (m, r) := by
  rcases hr with rfl | h | h
  · rfl
  · cases r with
    | nil => simp at h
    | cons c t =>
        simp only [List.head?_cons, Option.some_inj] at h
        subst h
        simp [matchExp]
  · cases r with
    | nil => simp at h
    | cons c t =>
        simp only [List.head?_cons, Option.some_inj] at h
        subst h
        simp [matchExp]

theorem toFixed2Chars_shape (q : ℚ) :
    (q < 0 ∧ toFixed2Chars q
        = '-' :: (natDigits (fix2Nat q / 100)
            ++ '.' :: twoDigits (fix2Nat q % 100))) ∨
    (¬ q < 0 ∧ toFixed2Chars q
        = natDigits (fix2Nat q / 100) ++ '.' :: twoDigits (fix2Nat q % 100)) := by
  by_cases hq : q < 0
  · left
    exact ⟨hq, by simp [toFixed2Chars, hq]⟩
  · right
    exact ⟨hq, by simp [toFixed2Chars, hq]⟩

theorem matchNumAt_fix2 (q : ℚ) (r : List Char)
    (hr : r = [] ∨ r.head? = some ' ' ∨ r.head? = some ',') :
    matchNumAt (toFixed2Chars q ++ r) = some (toFixed2Chars q, r) := by
  have hd1 := natDigits_all_dig (fix2Nat q / 100)
  have hn1 := natDigits_ne_nil (fix2Nat q / 100)
  have hd2 := twoDigits_all_dig (fix2Nat q % 100)
  have hn2 := twoDigits_ne_nil (fix2Nat q % 100)
  have hmc := matchCore_digits _ _ _ hd1 hn1 hd2 hn2 hr
  rcases toFixed2Chars_shape q with ⟨hq, hsh⟩ | ⟨hq, hsh⟩
  · have hme := matchExp_sep ('-' :: (natDigits (fix2Nat q / 100)
      ++ '.' :: twoDigits (fix2Nat q % 100))) r hr
    rw [hsh]
    have hlist : ('-' :: (natDigits (fix2Nat q / 100)
          ++ '.' :: twoDigits (fix2Nat q % 100))) ++ r
        = '-' :: (natDigits (fix2Nat q / 100)
            ++ '.' :: (twoDigits (fix2Nat q % 100) ++ r)) := by
      simp
    rw [hlist]
    simp [matchNumAt, hmc, hme]
  · have hme := matchExp_sep (natDigits (fix2Nat q / 100)
      ++ '.' :: twoDigits (fix2Nat q % 100)) r hr
    rw [hsh]
    obtain ⟨c, ds, hds⟩ := List.exists_cons_of_ne_nil hn1
    have hcdig : isDig c = true := hd1 c (by rw [hds]; exact List.mem_cons_self c ds)
    have hlist : (natDigits (fix2Nat q / 100)
          ++ '.' :: twoDigits (fix2Nat q % 100)) ++ r
        = c :: (ds ++ '.' :: (twoDigits (fix2Nat q % 100) ++ r)) := by
      rw [hds]
      simp
    have hback : c :: (ds ++ '.' :: (twoDigits (fix2Nat q % 100) ++ r))
        = natDigits (fix2Nat q / 100) ++ '.' :: (twoDigits (fix2Nat q % 100) ++ r) := by
      rw [hds]
      simp
    rw [hlist]
    simp only [matchNumAt]
    rw [if_neg (isDig_not_sign hcdig), hback, hmc]
    simp [hme]

theorem execNum_of_matchNumAt {cs m r : List Char} (hne : cs ≠ [])
    (h : matchNumAt cs = some (m, r)) : execNum cs = some m := by
  cases cs with
  | nil => exact absurd rfl hne
  | cons c t => simp [execNum, h]

theorem toFixed2Chars_ne_nil (q : ℚ) : toFixed2Chars q ≠ [] := by
  rcases toFixed2Chars_shape q with ⟨_, hsh⟩ | ⟨_, hsh⟩ <;>
    simp [hsh, natDigits_ne_nil]

/- ## The tokenizer on serialized paths -/

theorem except_map_map {α β γ : Type} (e : Except String α) (f : α → β) (g : β → γ) :
    (e.map f).map g = e.map (fun a => g (f a)) := by
  cases e <;> rfl

theorem tokenizeFuel_fi : ∀ (n : ℕ) (cs : List Char) (f1 f2 : ℕ),
    cs.length ≤ n → cs.length ≤ f1 → cs.length ≤ f2 →
    tokenizeFuel f1 cs = tokenizeFuel f2 cs := by
  intro n
  induction n with
  | zero =>
      intro cs f1 f2 h0 h1 h2
      have hnil : cs = [] := by
        cases cs with
        | nil => rfl
        | cons c t => simp at h0
      subst hnil
      cases f1 <;> cases f2 <;> rfl
  | succ n ih =>
      intro cs f1 f2 h0 h1 h2
      cases cs with
      | nil => cases f1 <;> cases f2 <;> rfl
      | cons c t =>
          simp only [List.length_cons] at h0 h1 h2
          cases f1 with
          | zero => omega
          | succ g1 =>
              cases f2 with
              | zero => omega
              | succ g2 =>
                  simp only [tokenizeFuel]
                  by_cases ha : isAsciiAlpha c
                  · simp only [if_pos ha]
                    rw [ih t g1 g2 (by omega) (by omega) (by omega)]
                  · simp only [if_neg ha]
                    by_cases hs : isSepChar c
                    · simp only [if_pos hs]
                      exact ih t g1 g2 (by omega) (by omega) (by omega)
                    · simp only [if_neg hs]
                      cases hE : execNum (c :: t) with
                      | none => rfl
                      | some m =>
                          have hle : (t.drop (m.length - 1)).length ≤ t.length := by
                            simp [List.length_drop]
                          have heq := ih (t.drop (m.length - 1)) g1 g2 (by omega)
                            (by omega) (by omega)
                          simp only [heq]

theorem tokF_alpha (fuel : ℕ) (hf : 1 ≤ fuel) (c : Char) (r : List Char)
    (h : isAsciiAlpha c = true) :
    tokenizeFuel fuel (c :: r)
      = (tokenizeFuel (fuel - 1) r).map (fun ts => String.mk [c] :: ts) := by
  cases fuel with
  | zero => omega
  | succ g => simp [tokenizeFuel, h]

theorem tokF_sep (fuel : ℕ) (hf : 1 ≤ fuel) (c : Char) (r : List Char)
    (ha : isAsciiAlpha c = false) (hs : isSepChar c = true) :
    tokenizeFuel fuel (c :: r) = tokenizeFuel (fuel - 1) r := by
  cases fuel with
  | zero => omega
  | succ g => simp [tokenizeFuel, ha, hs]

theorem tokF_num (fuel : ℕ) (hf : 1 ≤ fuel) (q : ℚ) (r : List Char)
    (hr : r = [] ∨ r.head? = some ' ' ∨ r.head? = some ',') :
    tokenizeFuel fuel (toFixed2Chars q ++ r)
      = (tokenizeFuel (fuel - 1) r).map (fun ts => toFixed2 q :: ts) := by
  obtain ⟨c, body, hc⟩ := List.exists_cons_of_ne_nil (toFixed2Chars_ne_nil q)
  have hfirst : c = '-' ∨ isDig c = true := by
    rcases toFixed2Chars_shape q with ⟨_, hsh⟩ | ⟨_, hsh⟩
    · rw [hsh] at hc
      exact Or.inl (by injection hc with h1 h2; exact h1.symm)
    · obtain ⟨d, ds, hds⟩ :=
        List.exists_cons_of_ne_nil (natDigits_ne_nil (fix2Nat q / 100))
      rw [hsh, hds, List.cons_append] at hc
      injection hc with h1 h2
      right
      rw [h1] at hds
      exact natDigits_all_dig (fix2Nat q / 100) c (by rw [hds]; exact List.mem_cons_self _ _)
  have ha : isAsciiAlpha c = false := by
    rcases hfirst with rfl | hd
    · decide
    · exact isDig_not_alpha hd
  have hs : isSepChar c = false := by
    rcases hfirst with rfl | hd
    · decide
    · exact isDig_not_sep hd
  have hsplit : toFixed2Chars q ++ r = c :: (body ++ r) := by
    rw [hc]
    simp
  have hE : execNum (c :: (body ++ r)) = some (toFixed2Chars q) := by
    rw [← hsplit]
    exact execNum_of_matchNumAt (by rw [hsplit]; simp) (matchNumAt_fix2 q r hr)
  rw [hsplit]
  cases fuel with
  | zero => omega
  | succ g =>
      simp only [tokenizeFuel, ha, hs, Bool.false_eq_true, if_false]
      rw [hE]
      have hdrop : (body ++ r).drop ((toFixed2Chars q).length - 1) = r := by
        rw [hc]
        simp only [List.length_cons, Nat.add_sub_cancel]
        rw [List.drop_append_of_le_length (le_refl _), List.drop_length,
          List.nil_append]
      simp only [hdrop, Nat.succ_sub_one]
      rfl

theorem toFixed2Chars_length_pos (q : ℚ) : 1 ≤ (toFixed2Chars q).length := by
  obtain ⟨c, body, hc⟩ := List.exists_cons_of_ne_nil (toFixed2Chars_ne_nil q)
  rw [hc]
  simp

theorem tokF_seg (s : Seg) (r : List Char)
    (hr : r = [] ∨ r.head? = some ' ') (fuel : ℕ)
    (hf : ((serializeSeg s).data ++ r).length ≤ fuel) :
    tokenizeFuel fuel ((serializeSeg s).data ++ r)
      = (tokenizeFuel r.length r).map (fun ts => segTokens s ++ ts) := by
  have hr3 : r = [] ∨ r.head? = some ' ' ∨ r.head? = some ',' := by
    rcases hr with h | h
    · exact Or.inl h
    · exact Or.inr (Or.inl h)
  cases s with
  | M x y =>
      have hdata : (serializeSeg (Seg.M x y)).data ++ r
          = 'M' :: (toFixed2Chars x ++ ',' :: (toFixed2Chars y ++ r)) := by
        simp [serializeSeg, toFixed2]
      have l1 := toFixed2Chars_length_pos x
      have l2 := toFixed2Chars_length_pos y
      rw [hdata] at hf ⊢
      simp only [List.length_cons, List.length_append] at hf
      rw [tokF_alpha fuel (by omega) 'M' _ (by decide)]
      rw [tokF_num (fuel - 1) (by omega) x (',' :: (toFixed2Chars y ++ r)) (by simp)]
      rw [tokF_sep (fuel - 1 - 1) (by omega) ',' _ (by decide) (by decide)]
      rw [tokF_num (fuel - 1 - 1 - 1) (by omega) y r hr3]
      rw [tokenizeFuel_fi r.length r (fuel - 1 - 1 - 1 - 1) r.length (le_refl _)
        (by omega) (le_refl _)]
      rw [except_map_map, except_map_map]
      rfl
  | C a b c d ex ey =>
      have hdata : (serializeSeg (Seg.C a b c d ex ey)).data ++ r
          = 'C' :: (toFixed2Chars a ++ ',' :: (toFixed2Chars b ++ ' '
              :: (toFixed2Chars c ++ ',' :: (toFixed2Chars d ++ ' '
              :: (toFixed2Chars ex ++ ',' :: (toFixed2Chars ey ++ r)))))) := by
        simp [serializeSeg, toFixed2]
      have l1 := toFixed2Chars_length_pos a
      have l2 := toFixed2Chars_length_pos b
      have l3 := toFixed2Chars_length_pos c
      have l4 := toFixed2Chars_length_pos d
      have l5 := toFixed2Chars_length_pos ex
      have l6 := toFixed2Chars_length_pos ey
      rw [hdata] at hf ⊢
      simp only [List.length_cons, List.length_append] at hf
      rw [tokF_alpha fuel (by omega) 'C' _ (by decide)]
      rw [tokF_num (fuel - 1) (by omega) a _ (by simp)]
      rw [tokF_sep (fuel - 1 - 1) (by omega) ',' _ (by decide) (by decide)]
      rw [tokF_num (fuel - 1 - 1 - 1) (by omega) b _ (by simp)]
      rw [tokF_sep (fuel - 1 - 1 - 1 - 1) (by omega) ' ' _ (by decide) (by decide)]
      rw [tokF_num (fuel - 1 - 1 - 1 - 1 - 1) (by omega) c _ (by simp)]
      rw [tokF_sep (fuel - 1 - 1 - 1 - 1 - 1 - 1) (by omega) ',' _ (by decide)
        (by decide)]
      rw [tokF_num (fuel - 1 - 1 - 1 - 1 - 1 - 1 - 1) (by omega) d _ (by simp)]
      rw [tokF_sep (fuel - 1 - 1 - 1 - 1 - 1 - 1 - 1 - 1) (by omega) ' ' _
        (by decide) (by decide)]
      rw [tokF_num (fuel - 1 - 1 - 1 - 1 - 1 - 1 - 1 - 1 - 1) (by omega) ex _
        (by simp)]
      rw [tokF_sep (fuel - 1 - 1 - 1 - 1 - 1 - 1 - 1 - 1 - 1 - 1) (by omega) ','
        _ (by decide) (by decide)]
      rw [tokF_num (fuel - 1 - 1 - 1 - 1 - 1 - 1 - 1 - 1 - 1 - 1 - 1) (by omega)
        ey r hr3]
      rw [tokenizeFuel_fi r.length r
        (fuel - 1 - 1 - 1 - 1 - 1 - 1 - 1 - 1 - 1 - 1 - 1 - 1) r.length
        (le_refl _) (by omega) (le_refl _)]
      rw [except_map_map, except_map_map, except_map_map, except_map_map,
        except_map_map, except_map_map]
      rfl

theorem tokF_path : ∀ (pts : List Seg) (r : List Char)
    (hr : r = [] ∨ r.head? = some ' ') (fuel : ℕ),
    ((serializePath pts).data ++ r).length ≤ fuel →
    tokenizeFuel fuel ((serializePath pts).data ++ r)
      = (tokenizeFuel r.length r).map (fun ts => pathTokens pts ++ ts) := by
  intro pts
  induction pts with
  | nil =>
      intro r hr fuel hf
      have hd : (serializePath ([] : List Seg)).data = [] := rfl
      rw [hd] at hf ⊢
      simp only [List.nil_append] at hf ⊢
      rw [tokenizeFuel_fi r.length r fuel r.length (le_refl _) hf (le_refl _)]
      cases tokenizeFuel r.length r <;> simp [pathTokens, Except.map]
  | cons s rest ih =>
      intro r hr fuel hf
      cases rest with
      | nil =>
          have hd : (serializePath [s]).data = (serializeSeg s).data := rfl
          rw [hd] at hf ⊢
          rw [tokF_seg s r hr fuel hf]
          cases tokenizeFuel r.length r <;> simp [pathTokens, Except.map]
      | cons t rest2 =>
          have hd : (serializePath (s :: t :: rest2)).data ++ r
              = (serializeSeg s).data
                ++ (' ' :: ((serializePath (t :: rest2)).data ++ r)) := by
            simp [serializePath, joinSpace]
          rw [hd] at hf ⊢
          rw [tokF_seg s (' ' :: ((serializePath (t :: rest2)).data ++ r))
            (by simp) fuel hf]
          rw [tokF_sep (' ' :: ((serializePath (t :: rest2)).data ++ r)).length
            (by simp) ' ' _ (by decide) (by decide)]
          have hlen : (' ' :: ((serializePath (t :: rest2)).data ++ r)).length - 1
              = ((serializePath (t :: rest2)).data ++ r).length := by
            simp
          rw [hlen]
          rw [ih r hr _ (le_refl _)]
          rw [except_map_map]
          cases tokenizeFuel r.length r <;>
            simp [pathTokens, List.append_assoc, Except.map]

theorem tokenize_serializePath (pts : List Seg) :
    tokenize (serializePath pts) = Except.ok (pathTokens pts) := by
  unfold tokenize
  have h := tokF_path pts [] (Or.inl rfl) ((serializePath pts).data.length)
    (by simp)
  simp only [List.append_nil] at h
  rw [h]
  simp [tokenizeFuel, Except.map]

/- ## parseFloat on serialized coordinates -/

theorem all_dig_take (l : List Char) (h : ∀ c ∈ l, isDig c = true) :
    l.takeWhile isDig = l ∧ l.dropWhile isDig = [] := by
  constructor
  · have h1 := takeWhile_append_all isDig l [] h
    simpa using h1
  · have h1 := dropWhile_append_all isDig l [] h
    simpa using h1

theorem parseFloat_spans (nd two : List Char)
    (h1 : ∀ c ∈ nd, isDig c = true)
    (h2 : ∀ c ∈ two, isDig c = true) :
    (nd ++ '.' :: two).takeWhile isDig = nd
      ∧ (nd ++ '.' :: two).dropWhile isDig = '.' :: two
      ∧ two.takeWhile isDig = two ∧ two.dropWhile isDig = [] := by
  obtain ⟨ht2, hd2⟩ := all_dig_take two h2
  refine ⟨?_, ?_, ht2, hd2⟩
  · rw [takeWhile_append_all _ _ _ h1]
    simp [List.takeWhile_cons, show isDig '.' = false from by decide]
  · rw [dropWhile_append_all _ _ _ h1]
    simp [List.dropWhile_cons, show isDig '.' = false from by decide]

theorem fix2_frac_eq (N : ℕ) :
    ((N / 100 : ℕ) : ℚ) + ((N % 100 : ℕ) : ℚ) / 10 ^ 2 = (N : ℚ) / 100 := by
  have h := Nat.div_add_mod N 100
  have hc : (100 : ℚ) * ((N / 100 : ℕ) : ℚ) + ((N % 100 : ℕ) : ℚ) = (N : ℚ) := by
    exact_mod_cast congrArg (fun n : ℕ => (n : ℚ)) h
  have h10 : ((10 : ℚ)) ^ 2 = 100 := by norm_num
  rw [h10]
  field_simp
  linarith

theorem parseFloatQ_fix2 (q : ℚ) : parseFloatQ (toFixed2 q) = some (round2 q) := by
  have hd1 := natDigits_all_dig (fix2Nat q / 100)
  have hn1 := natDigits_ne_nil (fix2Nat q / 100)
  have hd2 := twoDigits_all_dig (fix2Nat q % 100)
  have hlen : (twoDigits (fix2Nat q % 100)).length = 2 :=
    twoDigits_length _ (Nat.mod_lt _ (by norm_num))
  have hvd1 := digitsVal_natDigits (fix2Nat q / 100)
  have hvd2 := digitsVal_twoDigits (fix2Nat q % 100)
  obtain ⟨e1, e2, e3, e4⟩ := parseFloat_spans _ _ hd1 hd2
  have e5 : (natDigits (fix2Nat q / 100)).isEmpty = false := by simp [hn1]
  have hdata : (toFixed2 q).data = toFixed2Chars q := rfl
  have hval := fix2_frac_eq (fix2Nat q)
  rcases toFixed2Chars_shape q with ⟨hq, hsh⟩ | ⟨hq, hsh⟩
  · unfold parseFloatQ
    rw [hdata, hsh]
    simp only [List.dropWhile_cons, show isJsSpace '-' = false from by decide,
      Bool.false_eq_true, if_false]
    simp only [show (('-' : Char) = '-') ↔ True from by simp, true_or, if_true,
      e1, e2, e3, e4, e5, List.head?_cons, List.tail_cons,
      Bool.false_and, Bool.false_eq_true, if_false, hvd1, hvd2, hlen,
      zpow_zero, mul_one]
    refine congrArg some ?_
    rw [round2, if_pos hq, hval]
    ring
  · unfold parseFloatQ
    obtain ⟨d, ds, hds⟩ := List.exists_cons_of_ne_nil hn1
    have hdd : isDig d = true := hd1 d (by rw [hds]; exact List.mem_cons_self _ _)
    have hdj : isJsSpace d = false := isDig_not_jsSpace hdd
    have hdm : ¬ (d = '-' ∨ d = '+') := by
      intro hcase
      rcases hcase with rfl | rfl <;> simp [isDig] at hdd
    have hdneg : ¬ d = '-' := fun h => hdm (Or.inl h)
    have hdplus : ¬ d = '+' := fun h => hdm (Or.inr h)
    rw [hdata, hsh, hds, List.cons_append]
    simp only [List.dropWhile_cons, hdj, Bool.false_eq_true, if_false]
    simp only [hdneg, hdplus, false_or, if_false]
    simp only [← List.cons_append, ← hds]
    simp only [e1, e2, e3, e4, e5, List.head?_cons, List.tail_cons,
      Bool.false_and, Bool.false_eq_true, if_false, if_true, hvd1, hvd2, hlen,
      zpow_zero, mul_one]
    refine congrArg some ?_
    rw [round2, if_neg hq, hval]
    ring

theorem containsLetter_fix2 (q : ℚ) : containsLetter (toFixed2 q) = false := by
  have hd1 := natDigits_all_dig (fix2Nat q / 100)
  have hd2 := twoDigits_all_dig (fix2Nat q % 100)
  show (toFixed2Chars q).any isAsciiAlpha = false
  rw [List.any_eq_false]
  intro c hc
  rcases toFixed2Chars_shape q with ⟨_, hsh⟩ | ⟨_, hsh⟩ <;> rw [hsh] at hc
  · simp only [List.mem_cons, List.mem_append] at hc
    rcases hc with rfl | hnd | hc2
    · decide
    · simp [isDig_not_alpha (hd1 c hnd)]
    · rcases hc2 with rfl | htwo
      · decide
      · simp [isDig_not_alpha (hd2 c htwo)]
  · simp only [List.mem_append, List.mem_cons] at hc
    rcases hc with hnd | hc2
    · simp [isDig_not_alpha (hd1 c hnd)]
    · rcases hc2 with rfl | htwo
      · decide
      · simp [isDig_not_alpha (hd2 c htwo)]

/- ## The command loop on serialized token lists -/

theorem parseImplicit_stop (rel : Bool) (r : List String) (cx cy : ℚ)
    (acc : List Seg)
    (hr : r = [] ∨ ∃ t r2, r = t :: r2 ∧ containsLetter t = true) :
    parseImplicit rel r cx cy acc = InnerRes.more 0 cx cy acc := by
  rcases hr with rfl | ⟨t, r2, rfl, ht⟩
  · rfl
  · rw [parseImplicit.eq_def]
    simp [ht]

theorem pathTokens_allC_head (cs : List Seg) (h : cs.all segIsC = true) :
    pathTokens cs = [] ∨ ∃ t r2, pathTokens cs = t :: r2 ∧ containsLetter t = true := by
  cases cs with
  | nil => exact Or.inl rfl
  | cons s rest =>
      cases s with
      | M x y => simp [segIsC] at h
      | C a b c d e f =>
          exact Or.inr ⟨"C", toFixed2 a :: toFixed2 b :: toFixed2 c :: toFixed2 d
            :: toFixed2 e :: toFixed2 f :: pathTokens rest,
            by simp [pathTokens, segTokens], by decide⟩

theorem parseCArgs_step (a b c d e f : ℚ) (r : List String) (cx cy : ℚ)
    (acc : List Seg)
    (hr : r = [] ∨ ∃ t r2, r = t :: r2 ∧ containsLetter t = true) :
    parseCArgs false (toFixed2 a :: toFixed2 b :: toFixed2 c :: toFixed2 d
        :: toFixed2 e :: toFixed2 f :: r) cx cy acc
      = InnerRes.more 6 (round2 e) (round2 f)
          (acc ++ [Seg.C (round2 a) (round2 b) (round2 c) (round2 d)
              (round2 e) (round2 f)]) := by
  have h0 : parseCArgs false r (round2 e) (round2 f)
      (acc ++ [Seg.C (round2 a) (round2 b) (round2 c) (round2 d)
          (round2 e) (round2 f)])
      = InnerRes.more 0 (round2 e) (round2 f)
          (acc ++ [Seg.C (round2 a) (round2 b) (round2 c) (round2 d)
              (round2 e) (round2 f)]) := by
    rcases hr with rfl | ⟨t, r2, rfl, ht⟩
    · rfl
    · rw [parseCArgs.eq_def]
      simp [ht]
  rw [parseCArgs.eq_def]
  simp [containsLetter_fix2, parseFloatQ_fix2, h0]

theorem parseLoop_allC : ∀ (cs : List Seg), cs.all segIsC = true →
    ∀ (fuel : ℕ) (cx cy : ℚ) (acc : List Seg),
    (pathTokens cs).length ≤ fuel →
    parseLoopFuel fuel (pathTokens cs) cx cy acc
      = ParseRes.ok (acc ++ cs.map round2Seg) := by
  intro cs
  induction cs with
  | nil =>
      intro h fuel cx cy acc hf
      cases fuel <;> simp [pathTokens, parseLoopFuel]
  | cons s rest ih =>
      intro h fuel cx cy acc hf
      simp only [List.all_cons, Bool.and_eq_true] at h
      obtain ⟨hs, hrest⟩ := h
      cases s with
      | M x y => simp [segIsC] at hs
      | C a b c d e f =>
          have htoks : pathTokens (Seg.C a b c d e f :: rest)
              = "C" :: toFixed2 a :: toFixed2 b :: toFixed2 c :: toFixed2 d
                  :: toFixed2 e :: toFixed2 f :: pathTokens rest := by
            simp [pathTokens, segTokens]
          rw [htoks] at hf ⊢
          simp only [List.length_cons] at hf
          cases fuel with
          | zero => omega
          | succ g =>
              have hC1 : ¬ strToLower "C" = "m" := by decide
              have hC3 : ¬ ("C" : String) = "c" := by decide
              have hC2 : strToLower "C" = "c" := by decide
              have hstep := parseCArgs_step a b c d e f (pathTokens rest) cx cy
                acc (pathTokens_allC_head rest hrest)
              have hdrop : (toFixed2 a :: toFixed2 b :: toFixed2 c :: toFixed2 d
                  :: toFixed2 e :: toFixed2 f :: pathTokens rest).drop 6
                  = pathTokens rest := rfl
              have hdec : (decide (("C" : String) = "c")) = false := by decide
              have hcm : ¬ ("c" : String) = "m" := by decide
              simp only [parseLoopFuel, hC1, if_false, hC2, hC3, hcm, hdec,
                decide_False, hstep, hdrop, eq_self_iff_true, if_true]
              rw [ih hrest g (round2 e) (round2 f) _ (by omega)]
              simp [round2Seg, List.append_assoc]

theorem parsePath_roundtrip (pts : List Seg) (hwf : wellFormed pts = true) :
    parsePath (serializePath pts) = ParseRes.ok (pts.map round2Seg) := by
  simp only [parsePath, tokenize_serializePath]
  cases pts with
  | nil => rfl
  | cons s rest =>
      simp only [wellFormed, Bool.and_eq_true] at hwf
      obtain ⟨hM, hC⟩ := hwf
      cases s with
      | C a b c d e f => simp [segIsM] at hM
      | M x y =>
          have htoks : pathTokens (Seg.M x y :: rest)
              = "M" :: toFixed2 x :: toFixed2 y :: pathTokens rest := by
            simp [pathTokens, segTokens]
          rw [parseLoop, htoks]
          simp only [List.length_cons]
          have hM1 : strToLower "M" = "m" := by decide
          have hM3 : ¬ ("M" : String) = "m" := by decide
          have hMd : (decide (("M" : String) = "m")) = false := by decide
          have hstop := parseImplicit_stop false
            (pathTokens rest) (round2 x) (round2 y)
            [Seg.M (round2 x) (round2 y)]
            (pathTokens_allC_head rest hC)
          simp only [parseLoopFuel, hM1, hM3, hMd, decide_False,
            eq_self_iff_true, if_true, if_false, parseFloatQ_fix2, hstop,
            List.drop_zero, List.nil_append]
          rw [parseLoop_allC rest hC _ (round2 x) (round2 y)
            [Seg.M (round2 x) (round2 y)] (by omega)]
          simp [round2Seg]

/- ## The quantization bound of toFixed(2) -/

theorem round2_close (q : ℚ) : |round2 q - q| ≤ 1 / 200 := by
  have h0 : (0 : ℚ) ≤ |q| * 100 + 1 / 2 := by positivity
  have hF0 : (0 : ℤ) ≤ ⌊|q| * 100 + 1 / 2⌋ := Int.floor_nonneg.mpr h0
  have hle : ((⌊|q| * 100 + 1 / 2⌋ : ℤ) : ℚ) ≤ |q| * 100 + 1 / 2 :=
    Int.floor_le _
  have hlt : |q| * 100 + 1 / 2 < ((⌊|q| * 100 + 1 / 2⌋ : ℤ) : ℚ) + 1 :=
    Int.lt_floor_add_one _
  have hN : ((fix2Nat q : ℕ) : ℚ) = ((⌊|q| * 100 + 1 / 2⌋ : ℤ) : ℚ) := by
    rw [fix2Nat]
    rw [show ((⌊|q| * 100 + 1 / 2⌋.toNat : ℕ) : ℚ)
        = ((⌊|q| * 100 + 1 / 2⌋.toNat : ℤ) : ℚ) from by push_cast; ring]
    rw [Int.toNat_of_nonneg hF0]
  rw [round2]
  by_cases hq : q < 0
  · rw [if_pos hq, hN]
    have habs : |q| = -q := abs_of_neg hq
    rw [habs] at hle hlt ⊢
    rw [abs_le]
    constructor
    · linarith
    · linarith
  · rw [if_neg hq, hN]
    have habs : |q| = q := abs_of_nonneg (not_lt.mp hq)
    rw [habs] at hle hlt ⊢
    rw [abs_le]
    constructor
    · linarith
    · linarith

/-- **C1.** For every path whose segments satisfy the chain invariant
(`wellFormed`: one leading `M`, then only `C` segments), parsing the
serialized path-data text yields exactly the same segment sequence with
every coordinate replaced by its two-decimal quantization `round2`, and
that quantization moves each coordinate by at most `1/200 = 0.005` — i.e.
`parse(serialize(P))` reproduces `P` up to 2-decimal precision. -/
theorem c1_roundtrip (pts : List Seg) (hwf : wellFormed pts = true) :
    parsePath (serializePath pts) = ParseRes.ok (pts.map round2Seg)
      ∧ ∀ q : ℚ, |round2 q - q| ≤ 1 / 200 :=
  ⟨parsePath_roundtrip pts hwf, fun q => round2_close q⟩

/-- Witness for C1: the round trip at a concrete two-segment path. -/
theorem c1_roundtrip_witness :
    wellFormed examplePath = true
      ∧ parsePath (serializePath examplePath)
          = ParseRes.ok (examplePath.map round2Seg) :=
  ⟨by decide, (c1_roundtrip examplePath (by decide)).1⟩

end SvgPB
